import Mathlib

/-!
Verification of the bulk-import reconciliation engine of the zhiguan system.

The development shallowly embeds the Python source (`app.py`, `helpers.py`):
pure helpers become Lean functions on `List Char` / `String`, the SQLite
tables become lists of records, and the background import task becomes a
state-passing function that also returns the trace of persisted task rows.

Modelling scope for Python character classes (the source regexes operate on
product names and unit tokens that are ASCII or CJK): `\w` is modelled as
ASCII alphanumerics, the underscore and the CJK ideographs U+4E00..U+9FFF;
`\s` as the six ASCII whitespace characters; `str.lower` as the ASCII case
map.  All recursions are structural or fuelled by the input length so that
every definition evaluates by `decide`/`rfl`.
-/

namespace Zhiguan

/-- Python `\w` over the alphabets the source manipulates: ASCII
alphanumerics, `_`, and CJK ideographs U+4E00..U+9FFF. -/
def isWordChar (c : Char) : Bool :=
  c.isAlphanum || c = '_' || (0x4e00 ≤ c.toNat && c.toNat ≤ 0x9fff)

/-- Python `\s` (ASCII part): space, tab, newline, carriage return,
vertical tab, form feed. -/
def isSpaceChar (c : Char) : Bool :=
  c = ' ' || c = '\t' || c = '\n' || c = '\r' || c = '\x0b' || c = '\x0c'

/-- Opening brackets of the regex class `[\(\（]`. -/
def isOpenB (c : Char) : Bool := c = '(' || c = '（'

/-- Closing brackets of the regex class `[\)\）]`. -/
def isCloseB (c : Char) : Bool := c = ')' || c = '）'

/-- ASCII case folding, the fragment of Python `str.lower` exercised by
the imported data. -/
def pyLower (c : Char) : Char :=
  if 'A' ≤ c ∧ c ≤ 'Z' then Char.ofNat (c.toNat + 32) else c

/-- Drop leading Python whitespace (half of `str.strip`). -/
def dropLeading (l : List Char) : List Char := l.dropWhile isSpaceChar

/-- Drop trailing Python whitespace (the other half of `str.strip`). -/
def dropTrailing (l : List Char) : List Char :=
  (l.reverse.dropWhile isSpaceChar).reverse

/-- Python `str.strip`. -/
def stripChars (l : List Char) : List Char := dropTrailing (dropLeading l)

/-- Index of the first closing bracket reachable by the lazy `.*?` (which
cannot cross a newline); `none` when a newline or the end of the string
comes first.  This is the search the regex `[\(\（].*?[\)\）]` performs from
the character after an opening bracket. -/
def findClose : List Char → Option Nat
  | [] => none
  | c :: rest =>
    if isCloseB c then some 0
    else if c = '\n' then none
    else (findClose rest).map (· + 1)

/-- Fuelled scan of `re.sub(r'[\(\（].*?[\)\）]', '', s)`: at each position,
an opening bracket whose lazy search finds a closing bracket deletes the
whole span and the scan resumes after it; otherwise the character is kept.
The fuel is the length of the input, enough for the whole scan. -/
def removeBracketsF : Nat → List Char → List Char
  | _, [] => []
  | 0, l => l
  | fuel + 1, c :: rest =>
    if isOpenB c then
      match findClose rest with
      | some j => removeBracketsF fuel (rest.drop (j + 1))
      | none => c :: removeBracketsF fuel rest
    else c :: removeBracketsF fuel rest

/-- Stage 2 of the normalizer: `re.sub(r'[\(\（].*?[\)\）]', '', s)`. -/
def removeBrackets (l : List Char) : List Char := removeBracketsF l.length l

/-- The alternatives of the unit regex
`\b(kg|g|斤|箱|袋|包|克|千克|公斤|kg\.)\b`, in the order the alternation
tries them. -/
def unitAlts : List (List Char) :=
  [['k', 'g'], ['g'], ['斤'], ['箱'], ['袋'], ['包'], ['克'],
   ['千', '克'], ['公', '斤'], ['k', 'g', '.']]

/-- Whether a list starts with a word character (word-ness of the position
just after a match candidate; the end of the string counts as non-word). -/
def headIsWord (l : List Char) : Bool :=
  match l with
  | [] => false
  | c :: _ => isWordChar c

/-- The trailing `\b` of a unit alternative placed before `v`: the
boundary holds when exactly one of (last character of the alternative,
first character of `v`) is a word character. -/
def trailingOKP (alt v : List Char) : Bool :=
  isWordChar (alt.getLastD ' ') != headIsWord v

/-- Whether one alternative matches at the current position: the text must
start with the alternative and both `\b` anchors must hold.  `p` is the
word-ness of the previous character (`false` at the start of the string);
`\b` is the exclusive-or of the word-ness of the two adjacent positions. -/
def altOK (p : Bool) (cs alt : List Char) : Bool :=
  alt.isPrefixOf cs && (p != headIsWord cs) &&
    trailingOKP alt (cs.drop alt.length)

/-- First alternative of the unit regex matching at the current position
(`List.find?` mirrors the ordered alternation). -/
def unitFind (p : Bool) (cs : List Char) : Option (List Char) :=
  unitAlts.find? (fun alt => altOK p cs alt)

/-- Fuelled scan of `re.sub(r'\b(kg|...|kg\.)\b', '', s)`: a match is
deleted and the scan resumes after it with the match's last character as
previous character; otherwise the character is kept.  Fuel = input length. -/
def removeUnitsF : Nat → Bool → List Char → List Char
  | _, _, [] => []
  | 0, _, l => l
  | fuel + 1, p, c :: rest =>
    match unitFind p (c :: rest) with
    | some alt =>
      removeUnitsF fuel (isWordChar (alt.getLastD ' ')) ((c :: rest).drop alt.length)
    | none => c :: removeUnitsF fuel (isWordChar c) rest

/-- Stage 3 of the normalizer: the unit-token removal, starting at the
beginning of the string (previous position is non-word). -/
def removeUnits (l : List Char) : List Char := removeUnitsF l.length false l

/-- Character class kept by stage 4, `[^\w\s\(\)一-鿿]` negated:
word characters (CJK included), whitespace and the ASCII parentheses. -/
def keepPunct (c : Char) : Bool :=
  isWordChar c || isSpaceChar c || c = '(' || c = ')'

/-- Stage 4 of the normalizer: `re.sub(r'[^\w\s\(\)一-鿿]', ' ', s)`.
Every character outside the kept class becomes a single space. -/
def punctToSpace (l : List Char) : List Char :=
  l.map (fun c => if keepPunct c then c else ' ')

/-- The substitution `re.sub(r'\s+', ' ', s)`: each maximal whitespace run
becomes one space (a whitespace character directly followed by another is
dropped, the last of a run becomes `' '`). -/
def squeezeWS : List Char → List Char
  | [] => []
  | [c] => if isSpaceChar c then [' '] else [c]
  | c :: d :: rest =>
    if isSpaceChar c && isSpaceChar d then squeezeWS (d :: rest)
    else (if isSpaceChar c then ' ' else c) :: squeezeWS (d :: rest)

/-- Stage 5 of the normalizer: `re.sub(r'\s+', ' ', s).strip()`. -/
def collapseWS (l : List Char) : List Char := stripChars (squeezeWS l)

/-- The normalizer pipeline on character lists, in the order of the source:
strip+lower, bracket spans, unit tokens, punctuation to spaces, whitespace
collapse. -/
def normCore (l : List Char) : List Char :=
  collapseWS (punctToSpace (removeUnits (removeBrackets ((stripChars l).map pyLower))))

/-- `normalize_product_name` of `app.py` (lines 129-144): empty input gives
the empty string, otherwise the five-stage pipeline runs. -/
def normalize_product_name (s : String) : String :=
  if s.isEmpty then "" else (normCore s.toList).asString

/-! ## Cells: the values a pandas row can hand the import loop -/

/-- A spreadsheet cell as the import loop sees it: a string, the float
`nan` a missing value reads back as, or Python `None`. -/
inductive Cell where
  | str (s : String)
  | nan
  | pynone
deriving DecidableEq

/-- Python `str()` of a cell: strings unchanged, `str(float('nan')) = "nan"`,
`str(None) = "None"`. -/
def pyStr (c : Cell) : String :=
  match c with
  | Cell.str s => s
  | Cell.nan => "nan"
  | Cell.pynone => "None"

/-- Python truthiness of a cell: the empty string and `None` are falsy,
`nan` is truthy. -/
def cellTruthy (c : Cell) : Bool :=
  match c with
  | Cell.str s => !s.isEmpty
  | Cell.nan => true
  | Cell.pynone => false

/-- A data-frame row: association list from column name to cell. -/
abbrev Row := List (String × Cell)

/-- pandas `row.get(col, default)`. -/
def rowGet (row : Row) (col : String) (dflt : Cell) : Cell :=
  match List.find? (fun kv => kv.1 = col) row with
  | some kv => kv.2
  | none => dflt

/-- pandas `row.get(col)` with default `None`. -/
def rowGetOpt (row : Row) (col : String) : Option Cell :=
  (List.find? (fun kv => kv.1 = col) row).map (fun kv => kv.2)

/-! ## Number parsing: `_parse_number` of `app.py` (lines 73-84) -/

/-- Numeric value of a decimal digit. -/
def digitVal (c : Char) : Nat := c.toNat - 48

/-- Value of a digit string. -/
def digitsVal (l : List Char) : Nat := l.foldl (fun a c => 10 * a + digitVal c) 0

/-- Python `float()` on a sign-free string over the alphabet `0-9.`:
digits with at most one decimal point, at least one digit. -/
def pyFloatUnsigned (s : List Char) : Option ℚ :=
  if s.contains '-' then none
  else
    match s.splitOn '.' with
    | [p] => if p ≠ [] && p.all Char.isDigit then some (digitsVal p) else none
    | [p, q] =>
      if !(p = [] && q = []) && p.all Char.isDigit && q.all Char.isDigit then
        some ((digitsVal p : ℚ) + (digitsVal q : ℚ) / ((10 : ℚ) ^ q.length))
      else none
    | _ => none

/-- Python `float()` on a string over the alphabet `0-9.-`: an optional
leading minus, then an unsigned float literal. -/
def pyFloatOfFiltered (s : List Char) : Option ℚ :=
  match s with
  | '-' :: rest => (pyFloatUnsigned rest).map (fun q => -q)
  | _ => pyFloatUnsigned s

/-- `_parse_number` (app.py lines 73-84): `None` stays `None`; otherwise
`str(v).strip()`, delete everything outside `[\d\.\-]`, and `float` the
remainder (`None` on failure or emptiness). -/
def parse_number (v : Option Cell) : Option ℚ :=
  match v with
  | none => none
  | some c =>
    let s := (stripChars (pyStr c).toList).filter
      (fun ch => ch.isDigit || ch = '.' || ch = '-')
    if s = [] then none else pyFloatOfFiltered s

/-! ## Date resolution: `to_bid_month` of `app.py` (lines 183-204)

`datetime.strptime` is modelled after CPython `_strptime`: `%Y` is exactly
four digits, `%m` is `1[0-2]|0[1-9]|[1-9]`, `%d` is
`3[0-1]|[1-2]\d|0[1-9]|[1-9]| [1-9]` (alternatives tried in order, with
backtracking), the whole string must be consumed, and the `datetime`
constructor rejects year 0 and days beyond the month's length.
`strftime('%Y-%m')` prints the year unpadded (glibc) and the month
zero-padded to two digits. -/

/-- `%Y`: exactly four digits. -/
def parseYear4 (l : List Char) : Option (Nat × List Char) :=
  match l with
  | a :: b :: c :: d :: rest =>
    if a.isDigit && b.isDigit && c.isDigit && d.isDigit then
      some (digitsVal [a, b, c, d], rest)
    else none
  | _ => none

/-- `%m`: the backtracking candidates `1[0-2]`, `0[1-9]`, `[1-9]`, in
alternation order. -/
def monthCands (l : List Char) : List (Nat × List Char) :=
  (match l with
   | '1' :: d :: rest => if '0' ≤ d && d ≤ '2' then [(10 + digitVal d, rest)] else []
   | _ => []) ++
  (match l with
   | '0' :: d :: rest => if '1' ≤ d && d ≤ '9' then [(digitVal d, rest)] else []
   | _ => []) ++
  (match l with
   | d :: rest => if '1' ≤ d && d ≤ '9' then [(digitVal d, rest)] else []
   | _ => [])

/-- `%d`: the backtracking candidates `3[0-1]`, `[1-2]\d`, `0[1-9]`,
`[1-9]`, `␣[1-9]`, in alternation order. -/
def dayCands (l : List Char) : List (Nat × List Char) :=
  (match l with
   | '3' :: d :: rest => if d = '0' || d = '1' then [(30 + digitVal d, rest)] else []
   | _ => []) ++
  (match l with
   | c :: d :: rest =>
     if ('1' ≤ c && c ≤ '2') && d.isDigit then [(10 * digitVal c + digitVal d, rest)] else []
   | _ => []) ++
  (match l with
   | '0' :: d :: rest => if '1' ≤ d && d ≤ '9' then [(digitVal d, rest)] else []
   | _ => []) ++
  (match l with
   | d :: rest => if '1' ≤ d && d ≤ '9' then [(digitVal d, rest)] else []
   | _ => []) ++
  (match l with
   | ' ' :: d :: rest => if '1' ≤ d && d ≤ '9' then [(digitVal d, rest)] else []
   | _ => [])

/-- Consume one literal character. -/
def expectChar (c : Char) (l : List Char) : Option (List Char) :=
  match l with
  | d :: rest => if d = c then some rest else none
  | [] => none

/-- Gregorian leap year as `datetime` validates it. -/
def isLeap (y : Nat) : Bool := y % 4 = 0 && (y % 100 ≠ 0 || y % 400 = 0)

/-- Length of a month, for `datetime`'s day validation. -/
def daysInMonth (y m : Nat) : Nat :=
  if m = 2 then (if isLeap y then 29 else 28)
  else if m = 4 || m = 6 || m = 9 || m = 11 then 30
  else 31

/-- The `datetime(year, month, day)` constructor checks modelled here:
year in `1..9999` and the day within the month (month and day ranges are
already enforced by the format regexes). -/
def validDate (y m d : Nat) : Bool := 1 ≤ y && y ≤ 9999 && d ≤ daysInMonth y m

/-- `strptime` with format `%Y<sep>%m<sep>%d`. -/
def strptimeYMD (sep : Char) (l : List Char) : Option (Nat × Nat) :=
  match parseYear4 l with
  | none => none
  | some (y, r1) =>
    match expectChar sep r1 with
    | none => none
    | some r2 =>
      (monthCands r2).findSome? (fun mc =>
        match expectChar sep mc.2 with
        | none => none
        | some r3 =>
          (dayCands r3).findSome? (fun dc =>
            if dc.2 = [] && validDate y mc.1 dc.1 then some (y, mc.1) else none))

/-- `strptime` with format `%Y<sep>%m`. -/
def strptimeYM (sep : Char) (l : List Char) : Option (Nat × Nat) :=
  match parseYear4 l with
  | none => none
  | some (y, r1) =>
    match expectChar sep r1 with
    | none => none
    | some r2 =>
      (monthCands r2).findSome? (fun mc =>
        if mc.2 = [] && validDate y mc.1 1 then some (y, mc.1) else none)

/-- `strptime` with format `%Y` alone. -/
def strptimeY (l : List Char) : Option (Nat × Nat) :=
  match parseYear4 l with
  | some (y, []) => if validDate y 1 1 then some (y, 1) else none
  | _ => none

/-- `strptime` with the compact format `%Y%m`. -/
def strptimeCompact (l : List Char) : Option (Nat × Nat) :=
  match parseYear4 l with
  | none => none
  | some (y, r1) =>
    (monthCands r1).findSome? (fun mc =>
      if mc.2 = [] && validDate y mc.1 1 then some (y, mc.1) else none)

/-- The format list of `to_bid_month`, in source order:
`%Y-%m-%d`, `%Y/%m/%d`, `%Y.%m.%d`, `%Y-%m`, `%Y/%m`, `%Y.%m`, `%Y`. -/
def formatParsers : List (List Char → Option (Nat × Nat)) :=
  [strptimeYMD '-', strptimeYMD '/', strptimeYMD '.',
   strptimeYM '-', strptimeYM '/', strptimeYM '.', strptimeY]

/-- The `for fmt in ...: try: return ...` loop of `to_bid_month`: the
first format that parses wins. -/
def tryFormats (l : List Char) : Option (Nat × Nat) :=
  formatParsers.findSome? (fun p => p l)

/-- Zero-pad a month to two digits (`strftime('%m')`). -/
def pad2 (n : Nat) : String := if n < 10 then "0" ++ toString n else toString n

/-- `strftime('%Y-%m')`: unpadded year, two-digit month. -/
def fmtYM (y m : Nat) : String := toString y ++ "-" ++ pad2 m

/-- The `if global_month:` fallback block of `to_bid_month`: a falsy
fallback gives `''`; otherwise it is stripped and either its first seven
characters are returned (length ≥ 7) or it is parsed as compact `YYYYMM`,
any failure giving `''`. -/
def gmFallback (gm : String) : String :=
  if gm.isEmpty then ""
  else
    if 7 ≤ (stripChars gm.toList).length then ((stripChars gm.toList).take 7).asString
    else
      match strptimeCompact (stripChars gm.toList) with
      | some ym => fmtYM ym.1 ym.2
      | none => ""

/-- `to_bid_month` (app.py lines 183-204).  A truthy row value is
stripped and tried against the seven formats; on failure the
`global_month` fallback block runs. -/
def to_bid_month (v : Option Cell) (gm : String) : String :=
  let fromRow : Option (Nat × Nat) :=
    match v with
    | some c => if cellTruthy c then tryFormats (stripChars (pyStr c).toList) else none
    | none => none
  match fromRow with
  | some ym => fmtYM ym.1 ym.2
  | none => gmFallback gm

/-- Exact `YYYY-MM` shape: four digits, a hyphen, two digits. -/
def isYYYYMM (s : String) : Bool :=
  match s.toList with
  | [a, b, c, d, h, e, f] =>
    a.isDigit && b.isDigit && c.isDigit && d.isDigit && h = '-' && e.isDigit && f.isDigit
  | _ => false

/-! ## Matcher: `fuzzy_match_product` of `app.py` (lines 146-181)

The similarity backend (`rapidfuzz.fuzz.ratio` when installed, else
`difflib.SequenceMatcher`, both truncated to an integer 0-100 score) is a
parameter `ratio`; the function is otherwise a direct transcription. -/

/-- A row of the `products` table; `normalized` is `NULL`-able. -/
structure ProductRow where
  id : Nat
  name : String
  normalized : Option String
  created_at : String
deriving DecidableEq

/-- `COALESCE(normalized_name, '')`. -/
def coalesceNorm (r : ProductRow) : String := r.normalized.getD ""

/-- Python `a or b` on strings. -/
def pyOrStr (a b : String) : String := if a.isEmpty then b else a

/-- `fuzzy_match_product` (app.py lines 155-181): empty key gives `[]`;
an exact hit on `normalized_name` returns that single row with score 100;
otherwise every row is scored with `ratio`, rows reaching the threshold are
kept, stably sorted by descending score, and truncated to `lim`. -/
def fuzzy_match_product (ratio : String → String → Nat) (table : List ProductRow)
    (normalized_name : String) (threshold : Nat) (lim : Nat) :
    List (Nat × String × String × Nat) :=
  if normalized_name.isEmpty then []
  else
    match table.find? (fun r => r.normalized = some normalized_name) with
    | some r => [(r.id, r.name, coalesceNorm r, 100)]
    | none =>
      let cand := table.filterMap (fun r =>
        let pnorm := coalesceNorm r
        let score := ratio normalized_name (pyOrStr pnorm (pyOrStr r.name ""))
        if threshold ≤ score then some (r.id, r.name, pnorm, score) else none)
      (cand.mergeSort (fun a b => b.2.2.2 ≤ a.2.2.2)).take lim

/-! ## ConflictResolver in `process_smart_quote_import_new` (app.py 455-559) -/

/-- A row of the `quotes` table as `process_smart_quote_import_new` uses
it. -/
structure Quote where
  id : Nat
  product : String
  company : String
  price : ℚ
  qty : Int
  bid_date : String
  remarks : String
deriving DecidableEq

/-- Python `int()` truncation toward zero on a float. -/
def pyIntTrunc (q : ℚ) : Int := if 0 ≤ q then ⌊q⌋ else ⌈q⌉

/-- `clean_product_name` (app.py lines 460-467) on an already stringified
name: strip, and when a `-` occurs keep only the stripped part before the
first one. -/
def clean_product_name (s : String) : String :=
  let t := stripChars s.toList
  if t.contains '-' then (stripChars (t.takeWhile (fun c => c ≠ '-'))).asString
  else t.asString

/-- Mutable state of one `process_smart_quote_import_new` run. -/
structure SmartState where
  quotes : List Quote
  nextId : Nat
  success_count : Nat
  skip_count : Nat
  error_count : Nat
  errors : List String
deriving DecidableEq

/-- Fixed arguments of one `process_smart_quote_import_new` run.  `today`
is `datetime.now().strftime('%Y%m%d')`. -/
structure SmartCfg where
  product_col : String
  price_col : String
  qty_col : Option String
  company_name : String
  bid_date : String
  conflict_mode : String
  today : String
deriving DecidableEq

/-- The quantity computation of the row loop:
`int(_parse_number(row.get(qty_col)) or 1) if qty_col else 1`
(a parse failure or a parsed 0.0 are both falsy and give 1). -/
def smartQty (cfg : SmartCfg) (row : Row) : Int :=
  match cfg.qty_col with
  | none => 1
  | some qc =>
    match parse_number (rowGetOpt row qc) with
    | none => 1
    | some q => if q = 0 then 1 else pyIntTrunc q

/-- One iteration of the row loop of `process_smart_quote_import_new`
(app.py lines 484-539): read and clean the name, parse price and quantity,
validate, then resolve the `(product, company, bid_date)` conflict under
the conflict mode. -/
def smartRowStep (cfg : SmartCfg) (st : SmartState) (idx : Nat) (row : Row) : SmartState :=
  let raw := (stripChars (pyStr (rowGet row cfg.product_col (Cell.str ""))).toList).asString
  let product_name := clean_product_name raw
  let price? := parse_number (rowGetOpt row cfg.price_col)
  let qty : Int := smartQty cfg row
  match price? with
  | none =>
    { st with error_count := st.error_count + 1,
              errors := st.errors ++ ["第" ++ toString (idx + 2) ++ "行: 产品名称或中标价格为空"] }
  | some price =>
    if product_name.isEmpty then
      { st with error_count := st.error_count + 1,
                errors := st.errors ++ ["第" ++ toString (idx + 2) ++ "行: 产品名称或中标价格为空"] }
    else if price ≤ 0 then
      { st with error_count := st.error_count + 1,
                errors := st.errors ++ ["第" ++ toString (idx + 2) ++ "行: 中标价格必须大于0"] }
    else
      match st.quotes.find? (fun q =>
          q.product = product_name && q.company = cfg.company_name && q.bid_date = cfg.bid_date) with
      | some existing =>
        if cfg.conflict_mode = "skip" then
          { st with skip_count := st.skip_count + 1 }
        else if cfg.conflict_mode = "overwrite" || cfg.conflict_mode = "replace" then
          { st with
              quotes := st.quotes.map (fun q =>
                if q.id = existing.id then
                  { q with price := price, qty := qty, remarks := "更新_" ++ cfg.today }
                else q),
              success_count := st.success_count + 1 }
        else
          { st with skip_count := st.skip_count + 1 }
      | none =>
        { st with
            quotes := st.quotes ++
              [⟨st.nextId, product_name, cfg.company_name, price, qty, cfg.bid_date,
                "批量导入_" ++ cfg.today⟩],
            nextId := st.nextId + 1,
            success_count := st.success_count + 1 }

/-! ## The task-based import: `api_import_execute` (app.py 2789-2835) and
`_process_quote_import` (app.py 2837-3003) -/

/-- One entry of `mapping['price_cols']`; every field is read with
`.get`, so each is optional. -/
structure PriceColSpec where
  column : Option String
  company : Option String
  price_type : Option String
deriving DecidableEq

/-- The submitted column mapping: `mapping.get('product')`,
`mapping.get('price_cols', [])`, `mapping.get('date')`. -/
structure Mapping where
  product : Option String
  price_cols : List PriceColSpec
  date : Option String
deriving DecidableEq

/-- A row of the `quotes` table as `_process_quote_import` inserts it. -/
structure QuoteRec where
  id : Nat
  product_id : Nat
  source : String
  created_at : String
deriving DecidableEq

/-- A row of the `price_meta` table. -/
structure PriceMeta where
  id : Nat
  product_id : Nat
  bid_month : String
  company : String
  price : ℚ
  price_type : String
  created_at : String
deriving DecidableEq

/-- A row of the `import_errors` table. -/
structure ErrorRec where
  task_id : String
  row_no : Nat
  raw : Row
  error_msg : String
deriving DecidableEq

/-- The store tables the task import touches, with the auto-increment
counters. -/
structure Store where
  products : List ProductRow
  nextProductId : Nat
  quotes : List QuoteRec
  nextQuoteId : Nat
  price_meta : List PriceMeta
  nextPriceId : Nat
  import_errors : List ErrorRec
deriving DecidableEq

/-- One persisted state of the task's `import_tasks` row (the value the
row has after an `UPDATE ... ; commit`).  Counter columns are `NULL` until
first written. -/
structure TaskRow where
  status : String
  total : Option Nat
  success : Option Nat
  failed : Option Nat
  error_msg : Option String
deriving DecidableEq

/-- Fixed per-task arguments of the row loop, after validation.  `now` is
the `datetime.now().isoformat()` captured before the loop; `nowMonth` is
`datetime.now().strftime('%Y-%m')`, the fallback period. -/
structure ImportCfg where
  product_col : String
  price_cols : List PriceColSpec
  date_col : Option String
  global_month : String
  conflict_mode : String
  temp_id : String
  now : String
  nowMonth : String

/-- One iteration of the inner value-group loop of
`_process_quote_import` (app.py lines 2925-2960), folding over
`price_cols`: a group with a missing/empty column or company is skipped; a
parsed value marks the row (`at_least_one_price = True`) and is then
resolved against `price_meta` under the conflict mode. -/
def valueGroupStep (mode now : String) (product_id : Nat) (bid_month : String) (row : Row)
    (acc : List PriceMeta × Nat × Bool) (g : PriceColSpec) : List PriceMeta × Nat × Bool :=
  match g.column, g.company with
  | some pc, some comp =>
    if pc.isEmpty || comp.isEmpty then acc
    else
      match parse_number (rowGetOpt row pc) with
      | none => acc
      | some pv =>
        let ptype := g.price_type.getD "中标价(默认)"
        match acc.1.find? (fun r =>
            r.product_id = product_id && r.company = comp && r.bid_month = bid_month) with
        | some existing =>
          if mode = "skip" then (acc.1, acc.2.1, true)
          else if mode = "overwrite" then
            (acc.1.map (fun r =>
               if r.id = existing.id then
                 { r with price := pv, price_type := ptype, created_at := now }
               else r),
             acc.2.1, true)
          else (acc.1, acc.2.1, true)
        | none =>
          (acc.1 ++ [⟨acc.2.1, product_id, bid_month, comp, pv, ptype, now⟩], acc.2.1 + 1, true)
  | _, _ => acc

/-- One iteration of the row loop of `_process_quote_import` (app.py lines
2885-2963), on the non-raising path: a row whose stringified name cell is
empty is skipped outright; otherwise the product is looked up by
normalized name (created on a miss), a `quotes` row is inserted
unconditionally, the period is resolved, and every value group is folded
through `valueGroupStep`.  Returns the new store and whether the row
counts as a success (`at_least_one_price`). -/
def processRow (cfg : ImportCfg) (st : Store) (row : Row) : Store × Bool :=
  let product_name := pyStr (rowGet row cfg.product_col (Cell.str ""))
  if product_name.isEmpty then (st, false)
  else
    let normalized := normalize_product_name product_name
    let found := st.products.find? (fun r => r.normalized = some normalized)
    let product_id := match found with
      | some r => r.id
      | none => st.nextProductId
    let st1 := match found with
      | some _ => st
      | none =>
        { st with
            products := st.products ++
              [(⟨st.nextProductId, product_name, some normalized, cfg.now⟩ : ProductRow)],
            nextProductId := st.nextProductId + 1 }
    let st2 :=
      { st1 with
          quotes := st1.quotes ++
            [(⟨st1.nextQuoteId, product_id, "导入_" ++ cfg.temp_id, cfg.now⟩ : QuoteRec)],
          nextQuoteId := st1.nextQuoteId + 1 }
    let dateCell : Option Cell :=
      match cfg.date_col with
      | some dc => rowGetOpt row dc
      | none => none
    let bm0 := to_bid_month dateCell cfg.global_month
    let bid_month := if bm0.isEmpty then cfg.nowMonth else bm0
    let folded := cfg.price_cols.foldl
      (valueGroupStep cfg.conflict_mode cfg.now product_id bid_month row)
      (st2.price_meta, st2.nextPriceId, false)
    ({ st2 with price_meta := folded.1, nextPriceId := folded.2.1 }, folded.2.2)

/-- Whether the loop checkpoints progress after row `idx` (app.py line
2966): every 100 rows and at the final row. -/
def checkpointNeeded (idx total : Nat) : Bool :=
  (idx + 1) % 100 = 0 || idx + 1 = total

/-- The row loop of `_process_quote_import` with its periodic progress
checkpoints.  `oracle idx = some msg` models the environment raising an
exception while row `idx` is processed (the per-row `except` records the
error and increments the failure counter).  Returns the final store,
counters, and the list of task-row snapshots committed by the checkpoints. -/
def runRowsAux (cfg : ImportCfg) (oracle : Nat → Option String) (task_id : String)
    (total : Nat) : List Row → Nat → Store → Nat → Nat → Store × Nat × Nat × List TaskRow
  | [], _, st, s, f => (st, s, f, [])
  | row :: rest, idx, st, s, f =>
    match oracle idx with
    | some msg =>
      let st2 := { st with import_errors := st.import_errors ++ [⟨task_id, idx + 1, row, msg⟩] }
      runRowsAux cfg oracle task_id total rest (idx + 1) st2 s (f + 1)
    | none =>
      let pr := processRow cfg st row
      let s2 := if pr.2 then s + 1 else s
      let snaps : List TaskRow :=
        if checkpointNeeded idx total then [⟨"processing", some total, some s2, some f, none⟩]
        else []
      let out := runRowsAux cfg oracle task_id total rest (idx + 1) pr.1 s2 f
      (out.1, out.2.1, out.2.2.1, snaps ++ out.2.2.2)

/-- The validity check `_process_quote_import` performs on
`mapping.get('product')`: present and non-empty (Python truthiness). -/
def mappingProductOk (m : Mapping) : Bool :=
  match m.product with
  | some pc => !pc.isEmpty
  | none => false

/-- `_process_quote_import` (app.py 2837-3003) given a readable data
source `df`: commit `status = processing`; validate the mapping (a missing
product column or an empty `price_cols` raises, which the task-level
handler turns into a committed `failed` row); set `total`; run the row
loop; commit the final `completed` row.  Returns the final store and the
trace of committed `import_tasks` rows, in commit order. -/
def process_quote_import (m : Mapping) (global_month conflict_mode temp_id now nowMonth : String)
    (df : List Row) (oracle : Nat → Option String) (task_id : String) (st0 : Store) :
    Store × List TaskRow :=
  let procRow : TaskRow := ⟨"processing", none, none, none, none⟩
  if !(mappingProductOk m) then
    (st0, [procRow, ⟨"failed", none, none, none, some "必须指定产品列"⟩])
  else if m.price_cols.isEmpty then
    (st0, [procRow, ⟨"failed", none, none, none, some "必须至少指定一个价格列"⟩])
  else
    let pc := (m.product).getD ""
    let total := df.length
    let cfg : ImportCfg :=
      ⟨pc, m.price_cols, m.date, global_month, conflict_mode, temp_id, now, nowMonth⟩
    let out := runRowsAux cfg oracle task_id total df 0 st0 0 0
    (out.1,
     [procRow, ⟨"processing", some total, none, none, none⟩] ++ out.2.2.2 ++
       [⟨"completed", some total, some out.2.1, some out.2.2.1, none⟩])

/-- Synchronous response of `api_import_execute`. -/
inductive ApiResp where
  | badRequest
  | ok
deriving DecidableEq

/-- `api_import_execute` (app.py 2789-2835) composed with the background
task it submits: a request without `temp_id` or `mapping` is rejected with
HTTP 400 and no task row; otherwise the `pending` task row is inserted,
the submission returns success, and `_process_quote_import` later appends
its committed task rows.  The returned trace is the full history of the
task's persisted row. -/
def api_import_execute_pipeline (hasTempId hasMapping : Bool) (m : Mapping)
    (global_month conflict_mode temp_id now nowMonth : String) (df : List Row)
    (oracle : Nat → Option String) (task_id : String) (st0 : Store) :
    ApiResp × List TaskRow × Store :=
  if !hasTempId || !hasMapping then (ApiResp.badRequest, [], st0)
  else
    let run := process_quote_import m global_month conflict_mode temp_id now nowMonth df
      oracle task_id st0
    (ApiResp.ok, ⟨"pending", none, none, none, none⟩ :: run.2, run.1)

/-- Where, if anywhere, the environment raises inside the per-row `try`
of `_process_quote_import` (app.py lines 2885-2977).  The `try` covers
not only the row body but also `success_count += 1` (line 2962) and the
progress `UPDATE`/`commit` of the checkpoint (lines 2965-2971), so a
raise has two distinct classes of position: inside the row body, before
the success counter is touched (`body`), or during the checkpoint write,
after the whole row body including the success increment has completed
(`checkpoint`). -/
inductive RowExc where
  | ok
  | body (msg : String)
  | checkpoint (msg : String)
deriving DecidableEq

/-- The row loop of `_process_quote_import` (app.py lines 2885-2977) with
the per-row `try` modelled at the granularity of its raise points.  A row
whose stringified name cell is empty hits `continue` (line 2888) and
skips the rest of the `try`, the checkpoint included.  A `body` exception
reaches the `except` (line 2973): the error is recorded and `error_count`
increments, the success counter untouched.  A `checkpoint` exception
fires during the progress `UPDATE`/`commit` (lines 2965-2971), which run
inside the same `try` after `success_count += 1` (line 2962): the row's
effects and its success increment stand, the snapshot is not committed,
and the `except` then increments `error_count` for the same row — the
one path on which a single row is counted in both counters.  When no
checkpoint is due the checkpoint code does not run, so a `checkpoint`
exception cannot fire there and the row completes normally. -/
def runRowsChk (cfg : ImportCfg) (oracle : Nat → RowExc) (task_id : String)
    (total : Nat) : List Row → Nat → Store → Nat → Nat →
      Store × Nat × Nat × List TaskRow
  | [], _, st, s, f => (st, s, f, [])
  | row :: rest, idx, st, s, f =>
    match oracle idx with
    | RowExc.body msg =>
      let st2 := { st with import_errors := st.import_errors ++ [⟨task_id, idx + 1, row, msg⟩] }
      runRowsChk cfg oracle task_id total rest (idx + 1) st2 s (f + 1)
    | RowExc.ok =>
      if (pyStr (rowGet row cfg.product_col (Cell.str ""))).isEmpty then
        runRowsChk cfg oracle task_id total rest (idx + 1) st s f
      else
        let pr := processRow cfg st row
        let s2 := if pr.2 then s + 1 else s
        let snaps : List TaskRow :=
          if checkpointNeeded idx total then
            [⟨"processing", some total, some s2, some f, none⟩]
          else []
        let out := runRowsChk cfg oracle task_id total rest (idx + 1) pr.1 s2 f
        (out.1, out.2.1, out.2.2.1, snaps ++ out.2.2.2)
    | RowExc.checkpoint msg =>
      if (pyStr (rowGet row cfg.product_col (Cell.str ""))).isEmpty then
        runRowsChk cfg oracle task_id total rest (idx + 1) st s f
      else
        let pr := processRow cfg st row
        let s2 := if pr.2 then s + 1 else s
        if checkpointNeeded idx total then
          let st2 := { pr.1 with
            import_errors := pr.1.import_errors ++ [⟨task_id, idx + 1, row, msg⟩] }
          runRowsChk cfg oracle task_id total rest (idx + 1) st2 s2 (f + 1)
        else
          runRowsChk cfg oracle task_id total rest (idx + 1) pr.1 s2 f

/-- `_process_quote_import` (app.py 2837-3003) over the refined row loop:
identical to `process_quote_import` except that the per-row exception
oracle distinguishes the raise points of the `try` block. -/
def process_quote_import_chk (m : Mapping)
    (global_month conflict_mode temp_id now nowMonth : String) (df : List Row)
    (oracle : Nat → RowExc) (task_id : String) (st0 : Store) :
    Store × List TaskRow :=
  let procRow : TaskRow := ⟨"processing", none, none, none, none⟩
  if !(mappingProductOk m) then
    (st0, [procRow, ⟨"failed", none, none, none, some "必须指定产品列"⟩])
  else if m.price_cols.isEmpty then
    (st0, [procRow, ⟨"failed", none, none, none, some "必须至少指定一个价格列"⟩])
  else
    let pc := (m.product).getD ""
    let total := df.length
    let cfg : ImportCfg :=
      ⟨pc, m.price_cols, m.date, global_month, conflict_mode, temp_id, now, nowMonth⟩
    let out := runRowsChk cfg oracle task_id total df 0 st0 0 0
    (out.1,
     [procRow, ⟨"processing", some total, none, none, none⟩] ++ out.2.2.2 ++
       [⟨"completed", some total, some out.2.1, some out.2.2.1, none⟩])

/-- `api_import_execute` composed with the background task over the
refined row loop (the analogue of `api_import_execute_pipeline` for the
raise-point-aware oracle). -/
def api_import_execute_pipeline_chk (hasTempId hasMapping : Bool) (m : Mapping)
    (global_month conflict_mode temp_id now nowMonth : String) (df : List Row)
    (oracle : Nat → RowExc) (task_id : String) (st0 : Store) :
    ApiResp × List TaskRow × Store :=
  if !hasTempId || !hasMapping then (ApiResp.badRequest, [], st0)
  else
    let run := process_quote_import_chk m global_month conflict_mode temp_id now nowMonth df
      oracle task_id st0
    (ApiResp.ok, ⟨"pending", none, none, none, none⟩ :: run.2, run.1)

/-- Comparison of two persisted task rows by their counters (absent
counters count as 0): used to state that the counters never decrease over
a run. -/
def counterLE (t u : TaskRow) : Prop :=
  t.total.getD 0 ≤ u.total.getD 0 ∧ t.success.getD 0 ≤ u.success.getD 0 ∧
    t.failed.getD 0 ≤ u.failed.getD 0

/-- Whether a value group of the mapping parses on a row: column and
company present and non-empty, and the cell parses as a number.  This is
exactly the condition under which the row loop sets
`at_least_one_price`. -/
def groupParses (g : PriceColSpec) (row : Row) : Bool :=
  match g.column, g.company with
  | some pc, some comp =>
    !(pc.isEmpty || comp.isEmpty) && (parse_number (rowGetOpt row pc)).isSome
  | _, _ => false

/-! ## Predicates used by the theorem statements -/

/-- No opening bracket is followed (anywhere later) by a closing bracket:
exactly the condition under which the bracket-removal pass of the
normalizer leaves a newline-free string untouched. -/
def NoOpenClose (l : List Char) : Prop :=
  ∀ x y : Char, [x, y].Sublist l → isOpenB x = true → isCloseB y = true → False

/-- Word-ness of the position just before a suffix, given the word-ness
`p` of the edge the prefix `u` is attached to: the last character of `u`,
or `p` when `u` is empty. -/
def lastWE (p : Bool) (u : List Char) : Bool :=
  match u.getLast? with
  | some c => isWordChar c
  | none => p

/-- The all-word unit alternatives (`kg\.` is reachable only through a
position where `kg` itself already matches, so the scan never selects it;
see `unitFind_ne_kgdot`). -/
def wordAlts : List (List Char) :=
  [['k', 'g'], ['g'], ['斤'], ['箱'], ['袋'], ['包'], ['克'], ['千', '克'], ['公', '斤']]

/-- No `\b`-flanked occurrence of a unit alternative, where the left edge
of the whole list has word-ness `p`: exactly the condition under which the
unit-removal pass leaves the list untouched. -/
def TFE (p : Bool) (l : List Char) : Prop :=
  ∀ u alt v, l = u ++ alt ++ v → alt ∈ unitAlts → lastWE p u = false →
    trailingOKP alt v = true → False

/-- Like `TFE` but over the all-word alternatives only; equivalent to
`TFE` (a flanked `kg.` occurrence contains a flanked `kg` occurrence) and
the form the stage-transport lemmas use. -/
def TFW (p : Bool) (l : List Char) : Prop :=
  ∀ u alt v, l = u ++ alt ++ v → alt ∈ wordAlts → lastWE p u = false →
    trailingOKP alt v = true → False

example : normalize_product_name "(a\nb)" = "(a b)" := by decide
example : normalize_product_name "(a b)" = "" := by decide
example : normalize_product_name "a(x)b(y)c" = "abc" := by decide
example : normalize_product_name " Apple 500g (fresh) " = "apple 500g" := by decide
example : normalize_product_name "千克kg斤" = "千克kg斤" := by decide
example : normalize_product_name "apple kg pack" = "apple pack" := by decide
example : normalize_product_name "白菜 斤" = "白菜" := by decide
example : normalize_product_name "" = "" := by decide

example : to_bid_month (some (Cell.str "2024-03-15")) "" = "2024-03" := by decide
example : to_bid_month none "202403" = "2024-03" := by decide
example : to_bid_month none "2024-03-10" = "2024-03" := by decide
example : to_bid_month (some (Cell.str "garbage")) "" = "" := by decide
example : to_bid_month none "abcdefgh" = "abcdefg" := by decide
example : to_bid_month (some (Cell.str "2024-3-5")) "" = "2024-03" := by decide
example : to_bid_month (some (Cell.str "0024-03-05")) "" = "24-03" := by decide
example : to_bid_month (some (Cell.str "2024-13")) "" = "" := by decide
example : to_bid_month (some (Cell.str "20241")) "" = "" := by decide
example : to_bid_month none "20241" = "2024-01" := by decide
example : to_bid_month (some (Cell.str "2024")) "" = "2024-01" := by decide
example : to_bid_month none "2024035" = "2024035" := by decide
example : to_bid_month (some (Cell.str "2024-02-31")) "" = "" := by decide
example : to_bid_month (some (Cell.str "2024-02-29")) "" = "2024-02" := by decide
example : to_bid_month (some (Cell.str "2023-02-29")) "" = "" := by decide
example : to_bid_month (some (Cell.str " 2024/7 ")) "" = "2024-07" := by decide
example : to_bid_month none "  abc  " = "" := by decide
example : to_bid_month none "000101" = "1-01" := by decide
example : to_bid_month (some (Cell.str "12345-01")) "" = "" := by decide
example : to_bid_month (some (Cell.str "2024.5")) "" = "2024-05" := by decide
example : parse_number (some (Cell.str "¥1,234")) = some (1234 : ℚ) := by decide
example : parse_number (some (Cell.str "abc")) = none := by decide
example : parse_number (some (Cell.str "1.2.3")) = none := by decide
example : parse_number (some (Cell.str "-5")) = some (-5 : ℚ) := by decide
example : parse_number (some Cell.nan) = none := by decide
example : parse_number none = none := by decide

/-! ## C5: the range of `to_bid_month` -/

theorem monthCands_bounds {l : List Char} {mr : Nat × List Char} (h : mr ∈ monthCands l) :
    1 ≤ mr.1 ∧ mr.1 ≤ 12 := by
  unfold monthCands at h
  rcases List.mem_append.mp h with h' | h'
  · rcases List.mem_append.mp h' with h2 | h2
    · split at h2
      · rename_i d rest
        split at h2
        · rename_i hd
          simp only [List.mem_singleton] at h2
          subst h2
          simp only [Bool.and_eq_true, decide_eq_true_eq] at hd
          have hd1 : 48 ≤ d.toNat := hd.1
          have hd2 : d.toNat ≤ 50 := hd.2
          simp only [digitVal]
          omega
        · simp at h2
      · simp at h2
    · split at h2
      · rename_i d rest
        split at h2
        · rename_i hd
          simp only [List.mem_singleton] at h2
          subst h2
          simp only [Bool.and_eq_true, decide_eq_true_eq] at hd
          have hd1 : 49 ≤ d.toNat := hd.1
          have hd2 : d.toNat ≤ 57 := hd.2
          simp only [digitVal]
          omega
        · simp at h2
      · simp at h2
  · split at h'
    · rename_i d rest
      split at h'
      · rename_i hd
        simp only [List.mem_singleton] at h'
        subst h'
        simp only [Bool.and_eq_true, decide_eq_true_eq] at hd
        have hd1 : 49 ≤ d.toNat := hd.1
        have hd2 : d.toNat ≤ 57 := hd.2
        simp only [digitVal]
        omega
      · simp at h'
    · simp at h'

theorem validDate_year_bounds {y m d : Nat} (h : validDate y m d = true) :
    1 ≤ y ∧ y ≤ 9999 := by
  simp only [validDate, Bool.and_eq_true, decide_eq_true_eq] at h
  exact ⟨h.1.1, h.1.2⟩

theorem strptimeYMD_bounds {sep : Char} {l : List Char} {y m : Nat}
    (h : strptimeYMD sep l = some (y, m)) :
    1 ≤ y ∧ y ≤ 9999 ∧ 1 ≤ m ∧ m ≤ 12 := by
  unfold strptimeYMD at h
  split at h
  · exact absurd h (by simp)
  · rename_i y' r1 heq
    split at h
    · exact absurd h (by simp)
    · rename_i r2 hsep
      obtain ⟨mc, hmc, hmc2⟩ := List.exists_of_findSome?_eq_some h
      split at hmc2
      · exact absurd hmc2 (by simp)
      · rename_i r3 hsep2
        obtain ⟨dc, hdc, hdc2⟩ := List.exists_of_findSome?_eq_some hmc2
        split at hdc2
        · rename_i hval
          simp only [Option.some.injEq, Prod.mk.injEq] at hdc2
          obtain ⟨rfl, rfl⟩ := hdc2
          have hb := monthCands_bounds hmc
          have hv := validDate_year_bounds ((Bool.and_eq_true _ _).mp hval).2
          exact ⟨hv.1, hv.2, hb.1, hb.2⟩
        · exact absurd hdc2 (by simp)

theorem strptimeYM_bounds {sep : Char} {l : List Char} {y m : Nat}
    (h : strptimeYM sep l = some (y, m)) :
    1 ≤ y ∧ y ≤ 9999 ∧ 1 ≤ m ∧ m ≤ 12 := by
  unfold strptimeYM at h
  split at h
  · exact absurd h (by simp)
  · rename_i y' r1 heq
    split at h
    · exact absurd h (by simp)
    · rename_i r2 hsep
      obtain ⟨mc, hmc, hmc2⟩ := List.exists_of_findSome?_eq_some h
      split at hmc2
      · rename_i hval
        simp only [Option.some.injEq, Prod.mk.injEq] at hmc2
        obtain ⟨rfl, rfl⟩ := hmc2
        have hb := monthCands_bounds hmc
        have hv := validDate_year_bounds ((Bool.and_eq_true _ _).mp hval).2
        exact ⟨hv.1, hv.2, hb.1, hb.2⟩
      · exact absurd hmc2 (by simp)

theorem strptimeY_bounds {l : List Char} {y m : Nat}
    (h : strptimeY l = some (y, m)) :
    1 ≤ y ∧ y ≤ 9999 ∧ 1 ≤ m ∧ m ≤ 12 := by
  unfold strptimeY at h
  split at h
  · rename_i y' heq
    split at h
    · rename_i hval
      simp only [Option.some.injEq, Prod.mk.injEq] at h
      obtain ⟨rfl, rfl⟩ := h
      have hv := validDate_year_bounds hval
      exact ⟨hv.1, hv.2, le_refl 1, by omega⟩
    · exact absurd h (by simp)
  · exact absurd h (by simp)

theorem strptimeCompact_bounds {l : List Char} {y m : Nat}
    (h : strptimeCompact l = some (y, m)) :
    1 ≤ y ∧ y ≤ 9999 ∧ 1 ≤ m ∧ m ≤ 12 := by
  unfold strptimeCompact at h
  split at h
  · exact absurd h (by simp)
  · rename_i y' r1 heq
    obtain ⟨mc, hmc, hmc2⟩ := List.exists_of_findSome?_eq_some h
    split at hmc2
    · rename_i hval
      simp only [Option.some.injEq, Prod.mk.injEq] at hmc2
      obtain ⟨rfl, rfl⟩ := hmc2
      have hb := monthCands_bounds hmc
      have hv := validDate_year_bounds ((Bool.and_eq_true _ _).mp hval).2
      exact ⟨hv.1, hv.2, hb.1, hb.2⟩
    · exact absurd hmc2 (by simp)

theorem tryFormats_bounds {l : List Char} {y m : Nat}
    (h : tryFormats l = some (y, m)) :
    1 ≤ y ∧ y ≤ 9999 ∧ 1 ≤ m ∧ m ≤ 12 := by
  unfold tryFormats at h
  obtain ⟨p, hp, hpl⟩ := List.exists_of_findSome?_eq_some h
  simp only [formatParsers, List.mem_cons, List.not_mem_nil, or_false] at hp
  rcases hp with rfl | rfl | rfl | rfl | rfl | rfl | rfl
  · exact strptimeYMD_bounds hpl
  · exact strptimeYMD_bounds hpl
  · exact strptimeYMD_bounds hpl
  · exact strptimeYM_bounds hpl
  · exact strptimeYM_bounds hpl
  · exact strptimeYM_bounds hpl
  · exact strptimeY_bounds hpl

theorem gmFallback_cases (gm : String) :
    gmFallback gm = "" ∨ gmFallback gm = ((stripChars gm.toList).take 7).asString ∨
      ∃ y m, 1 ≤ y ∧ y ≤ 9999 ∧ 1 ≤ m ∧ m ≤ 12 ∧ gmFallback gm = fmtYM y m := by
  unfold gmFallback
  split
  · exact Or.inl rfl
  · split
    · exact Or.inr (Or.inl rfl)
    · rcases hc : strptimeCompact (stripChars gm.toList) with _ | ⟨y2, m2⟩
      · simp [hc]
      · obtain ⟨h1, h2, h3, h4⟩ := strptimeCompact_bounds hc
        exact Or.inr (Or.inr ⟨y2, m2, h1, h2, h3, h4, by simp [hc]⟩)

/-- C5 counterexample: with a null row value and the eight-character
fallback `"abcdefgh"`, the resolver returns `"abcdefg"`, which is neither
of the form `YYYY-MM` nor empty, refuting the claim at this input. -/
theorem c5_counterexample :
    to_bid_month none "abcdefgh" = "abcdefg" ∧ isYYYYMM "abcdefg" = false ∧
      "abcdefg" ≠ "" := by
  refine ⟨by decide, by decide, by decide⟩

/-- C5 (amended): `to_bid_month` returns the empty string, or the first
seven characters of the stripped fallback verbatim (with no format
guarantee), or a string `Y-MM` formatted from a parsed year `1..9999`
(unpadded, so `YYYY-MM` exactly when the year has four digits) and month
`1..12`. -/
theorem c5_amended (v : Option Cell) (gm : String) :
    to_bid_month v gm = "" ∨
      to_bid_month v gm = ((stripChars gm.toList).take 7).asString ∨
      ∃ y m, 1 ≤ y ∧ y ≤ 9999 ∧ 1 ≤ m ∧ m ≤ 12 ∧ to_bid_month v gm = fmtYM y m := by
  unfold to_bid_month
  cases v with
  | none => exact gmFallback_cases gm
  | some c =>
    by_cases hct : cellTruthy c = true
    · simp only [hct, if_true]
      rcases htf : tryFormats (stripChars (pyStr c).toList) with _ | ⟨y2, m2⟩
      · exact gmFallback_cases gm
      · obtain ⟨h1, h2, h3, h4⟩ := tryFormats_bounds htf
        exact Or.inr (Or.inr ⟨y2, m2, h1, h2, h3, h4, rfl⟩)
    · simp only [Bool.not_eq_true] at hct
      simp only [hct, Bool.false_eq_true, if_false]
      exact gmFallback_cases gm

/-! ## C6: empty key and exact-match short-circuit in the matcher -/

/-- C6 counterexample: a catalog row whose normalized key is the empty
string.  Its key equals the empty query key, yet the matcher returns no
result at all (the empty-key guard fires first), refuting the claim's
"whenever some catalog entity's normalized_key equals the query key, match
returns exactly one result" at this input. -/
theorem c6_counterexample :
    fuzzy_match_product (fun _ _ => 0) [⟨1, "x", some "", "T"⟩] "" 90 3 = [] ∧
      (⟨1, "x", some "", "T"⟩ : ProductRow).normalized = some "" := by
  exact ⟨by decide, rfl⟩

/-- C6 (amended): the matcher returns `[]` for the empty key — even when
some catalog row's normalized key is itself empty — and for a nonempty
query key equal to some entity's normalized key it returns exactly one
result, the first such entity with score 100, independently of the
similarity backend (exact match short-circuits fuzzy scoring). -/
theorem c6_amended :
    (∀ (ratio : String → String → Nat) (table : List ProductRow) (threshold lim : Nat),
      fuzzy_match_product ratio table "" threshold lim = []) ∧
    (∀ (ratio ratio' : String → String → Nat) (table : List ProductRow) (key : String)
        (threshold lim : Nat), key ≠ "" → (∃ r ∈ table, r.normalized = some key) →
      ∃ r ∈ table, r.normalized = some key ∧
        fuzzy_match_product ratio table key threshold lim = [(r.id, r.name, key, 100)] ∧
        fuzzy_match_product ratio table key threshold lim =
          fuzzy_match_product ratio' table key threshold lim) := by
  constructor
  · intro ratio table threshold lim
    rfl
  · intro ratio ratio' table key threshold lim hk hex
    have hemp : key.isEmpty = false := by
      rcases h : key.isEmpty with _ | _
      · rfl
      · exact absurd ((String.isEmpty_iff key).mp h) hk
    obtain ⟨r0, hr0mem, hr0⟩ := hex
    rcases hfind : table.find? (fun r => r.normalized = some key) with _ | r
    · exfalso
      have := List.find?_eq_none.mp hfind r0 hr0mem
      simp [hr0] at this
    · have hpred : r.normalized = some key := by
        have := List.find?_some hfind
        simpa using this
      have hmem := List.mem_of_find?_eq_some hfind
      have hco : coalesceNorm r = key := by
        simp [coalesceNorm, hpred]
      refine ⟨r, hmem, hpred, ?_, ?_⟩
      · simp [fuzzy_match_product, hemp, hfind, hco]
      · simp [fuzzy_match_product, hemp, hfind]

/-- Witness for C6 (amended): instantiated at a one-row catalog with
normalized key `"k"`, query `"k"`, and two different similarity backends. -/
theorem c6_witness :
    ∃ r ∈ [(⟨7, "K", some "k", "T"⟩ : ProductRow)], r.normalized = some "k" ∧
      fuzzy_match_product (fun _ _ => 0) [⟨7, "K", some "k", "T"⟩] "k" 90 3 =
        [(r.id, r.name, "k", 100)] ∧
      fuzzy_match_product (fun _ _ => 0) [⟨7, "K", some "k", "T"⟩] "k" 90 3 =
        fuzzy_match_product (fun _ _ => 55) [⟨7, "K", some "k", "T"⟩] "k" 90 3 :=
  c6_amended.2 (fun _ _ => 0) (fun _ _ => 55) [⟨7, "K", some "k", "T"⟩] "k" 90 3
    (by decide) ⟨⟨7, "K", some "k", "T"⟩, by simp, rfl⟩

/-! ## C4: conflict resolution -/

/-- C4 counterexample: under `conflict_mode = "replace"` — a mode that is
neither `skip` nor `overwrite` — `process_smart_quote_import_new` updates
the existing record (price 5 becomes 9, remarks restamped) and counts a
success, instead of behaving exactly as `skip`; the skip counter stays 0. -/
theorem c4_counterexample :
    smartRowStep ⟨"p", "v", none, "c", "2024-01-01", "replace", "D"⟩
        ⟨[⟨1, "x", "c", 5, 1, "2024-01-01", ""⟩], 2, 0, 0, 0, []⟩ 0
        [("p", Cell.str "x"), ("v", Cell.str "9")] =
      ⟨[⟨1, "x", "c", 9, 1, "2024-01-01", "更新_D"⟩], 2, 1, 0, 0, []⟩ ∧
    (smartRowStep ⟨"p", "v", none, "c", "2024-01-01", "replace", "D"⟩
        ⟨[⟨1, "x", "c", 5, 1, "2024-01-01", ""⟩], 2, 0, 0, 0, []⟩ 0
        [("p", Cell.str "x"), ("v", Cell.str "9")]).quotes ≠
      [⟨1, "x", "c", 5, 1, "2024-01-01", ""⟩] ∧
    (smartRowStep ⟨"p", "v", none, "c", "2024-01-01", "replace", "D"⟩
        ⟨[⟨1, "x", "c", 5, 1, "2024-01-01", ""⟩], 2, 0, 0, 0, []⟩ 0
        [("p", Cell.str "x"), ("v", Cell.str "9")]).skip_count = 0 := by
  exact ⟨by decide, by decide, by decide⟩

/-- C4 (amended): for a validated row (non-empty cleaned name, parsed
positive price): no existing `(product, company, bid_date)` record means
insert; an existing record with mode `skip` is left untouched and the
skip counter increments by exactly 1; mode `overwrite` — and also
`replace`, which `process_smart_quote_import_new` treats as overwrite —
updates the record in place; any other mode behaves exactly as `skip`.
In the task-based import loop (`_process_quote_import`), any mode other
than `skip` and `overwrite` leaves the conflicting record unchanged. -/
theorem c4_amended :
    (∀ (cfg : SmartCfg) (st : SmartState) (idx : Nat) (row : Row) (price : ℚ) (pname : String),
      pname = clean_product_name
        ((stripChars (pyStr (rowGet row cfg.product_col (Cell.str ""))).toList).asString) →
      parse_number (rowGetOpt row cfg.price_col) = some price → 0 < price → pname ≠ "" →
      (st.quotes.find? (fun q => q.product = pname && q.company = cfg.company_name &&
          q.bid_date = cfg.bid_date) = none →
        smartRowStep cfg st idx row =
          { st with
              quotes := st.quotes ++
                [⟨st.nextId, pname, cfg.company_name, price, smartQty cfg row, cfg.bid_date,
                  "批量导入_" ++ cfg.today⟩],
              nextId := st.nextId + 1, success_count := st.success_count + 1 }) ∧
      (∀ ex, st.quotes.find? (fun q => q.product = pname && q.company = cfg.company_name &&
          q.bid_date = cfg.bid_date) = some ex → cfg.conflict_mode = "skip" →
        smartRowStep cfg st idx row = { st with skip_count := st.skip_count + 1 }) ∧
      (∀ ex, st.quotes.find? (fun q => q.product = pname && q.company = cfg.company_name &&
          q.bid_date = cfg.bid_date) = some ex →
        cfg.conflict_mode = "overwrite" ∨ cfg.conflict_mode = "replace" →
        smartRowStep cfg st idx row =
          { st with
              quotes := st.quotes.map (fun q =>
                if q.id = ex.id then
                  { q with price := price, qty := smartQty cfg row,
                           remarks := "更新_" ++ cfg.today }
                else q),
              success_count := st.success_count + 1 }) ∧
      (∀ ex, st.quotes.find? (fun q => q.product = pname && q.company = cfg.company_name &&
          q.bid_date = cfg.bid_date) = some ex → cfg.conflict_mode ≠ "skip" →
        cfg.conflict_mode ≠ "overwrite" → cfg.conflict_mode ≠ "replace" →
        smartRowStep cfg st idx row = { st with skip_count := st.skip_count + 1 })) ∧
    (∀ (mode now : String) (pid : Nat) (bm : String) (row' : Row) (pm : List PriceMeta)
        (nid : Nat) (fl : Bool) (g : PriceColSpec) (pc comp : String) (pv : ℚ) (ex : PriceMeta),
      mode ≠ "skip" → mode ≠ "overwrite" →
      g.column = some pc → g.company = some comp → pc.isEmpty = false → comp.isEmpty = false →
      parse_number (rowGetOpt row' pc) = some pv →
      pm.find? (fun r => r.product_id = pid && r.company = comp && r.bid_month = bm) = some ex →
      valueGroupStep mode now pid bm row' (pm, nid, fl) g = (pm, nid, true)) := by
  constructor
  · intro cfg st idx row price pname hpn hp hpos hname
    have hempty : pname.isEmpty = false := by
      rcases h : pname.isEmpty with _ | _
      · rfl
      · exact absurd ((String.isEmpty_iff pname).mp h) hname
    have hnotle : ¬(price ≤ 0) := not_le.mpr hpos
    refine ⟨?_, ?_, ?_, ?_⟩
    · intro hfind
      simp only [smartRowStep, hp, ← hpn, hempty, Bool.false_eq_true, if_false, hnotle,
        hfind]
    · intro ex hfind hmode
      simp only [smartRowStep, hp, ← hpn, hempty, Bool.false_eq_true, if_false, hnotle,
        hfind, hmode, if_true]
    · intro ex hfind hmode
      have hnskip : ¬(cfg.conflict_mode = "skip") := by
        rcases hmode with h | h <;> rw [h] <;> decide
      have hor : (cfg.conflict_mode = "overwrite" || cfg.conflict_mode = "replace") = true := by
        rcases hmode with h | h <;> simp [h]
      simp only [smartRowStep, hp, ← hpn, hempty, Bool.false_eq_true, if_false, hnotle,
        hfind, hnskip, hor, if_true]
    · intro ex hfind h1 h2 h3
      have hor : (cfg.conflict_mode = "overwrite" || cfg.conflict_mode = "replace") = false := by
        simp [h2, h3]
      simp only [smartRowStep, hp, ← hpn, hempty, Bool.false_eq_true, if_false, hnotle,
        hfind, h1, hor, if_false]
  · intro mode now pid bm row' pm nid fl g pc comp pv ex h1 h2 hc hcomp hpc hcompe hpv hfind
    simp only [valueGroupStep, hc, hcomp, hpc, hcompe, Bool.or_self, Bool.false_eq_true,
      if_false, hpv, hfind, h1, h2, if_false]

/-- Witness for C4 (amended): a concrete skip-mode re-import of an
existing `(product, company, date)` triple leaves the stored quote
unchanged and bumps only the skip counter. -/
theorem c4_witness :
    smartRowStep ⟨"p", "v", none, "c", "2024-01-01", "skip", "D"⟩
        ⟨[⟨1, "x", "c", 5, 1, "2024-01-01", ""⟩], 2, 0, 0, 0, []⟩ 0
        [("p", Cell.str "x"), ("v", Cell.str "9")] =
      ⟨[⟨1, "x", "c", 5, 1, "2024-01-01", ""⟩], 2, 0, 1, 0, []⟩ :=
  (c4_amended.1 ⟨"p", "v", none, "c", "2024-01-01", "skip", "D"⟩
      ⟨[⟨1, "x", "c", 5, 1, "2024-01-01", ""⟩], 2, 0, 0, 0, []⟩ 0
      [("p", Cell.str "x"), ("v", Cell.str "9")] 9 "x"
      (by decide) (by decide) (by decide) (by decide)).2.1
    ⟨1, "x", "c", 5, 1, "2024-01-01", ""⟩ (by decide) rfl

/-! ## C1: what the row loop counts as a success -/

theorem valueGroupStep_flag (mode now : String) (pid : Nat) (bm : String) (row : Row)
    (acc : List PriceMeta × Nat × Bool) (g : PriceColSpec) :
    (valueGroupStep mode now pid bm row acc g).2.2 = (acc.2.2 || groupParses g row) := by
  rcases acc with ⟨pm, nid, fl⟩
  rcases g with ⟨gc, gcomp, gt⟩
  rcases gc with _ | pc
  · simp [valueGroupStep, groupParses]
  rcases gcomp with _ | comp
  · simp [valueGroupStep, groupParses]
  by_cases hpe : (pc.isEmpty || comp.isEmpty) = true
  · simp [valueGroupStep, groupParses, hpe]
  have hpe' : (pc.isEmpty || comp.isEmpty) = false := by
    exact Bool.eq_false_iff.mpr hpe
  rcases hp : parse_number (rowGetOpt row pc) with _ | pv
  · simp [valueGroupStep, groupParses, hpe', hp]
  simp only [valueGroupStep, groupParses, hpe', hp, Bool.false_eq_true, if_false,
    Option.isSome_some, Bool.not_false, Bool.true_and, Bool.and_true, Bool.or_true]
  split
  · split
    · rfl
    · split <;> rfl
  · rfl

theorem valueFold_flag (mode now : String) (pid : Nat) (bm : String) (row : Row) :
    ∀ (gs : List PriceColSpec) (acc : List PriceMeta × Nat × Bool),
    (gs.foldl (valueGroupStep mode now pid bm row) acc).2.2 =
      (acc.2.2 || gs.any (fun g => groupParses g row)) := by
  intro gs
  induction gs with
  | nil => intro acc; simp
  | cons g gs ih =>
    intro acc
    rw [List.foldl_cons, ih, List.any_cons]
    rcases hs : valueGroupStep mode now pid bm row acc g with ⟨pm2, nid2, fl2⟩
    have := valueGroupStep_flag mode now pid bm row acc g
    rw [hs] at this
    simp only at this
    rw [this, Bool.or_assoc]

theorem processRow_blank (cfg : ImportCfg) (st : Store) (row : Row)
    (h : pyStr (rowGet row cfg.product_col (Cell.str "")) = "") :
    processRow cfg st row = (st, false) := by
  have hemp : (pyStr (rowGet row cfg.product_col (Cell.str ""))).isEmpty = true := by
    rw [h]; rfl
  simp [processRow, hemp]

theorem pyStr_isEmpty_false {s : String} (h : s ≠ "") : s.isEmpty = false := by
  rcases he : s.isEmpty with _ | _
  · rfl
  · exact absurd ((String.isEmpty_iff _).mp he) h

theorem processRow_flag (cfg : ImportCfg) (st : Store) (row : Row)
    (h : pyStr (rowGet row cfg.product_col (Cell.str "")) ≠ "") :
    ((processRow cfg st row).2 = true ↔
      cfg.price_cols.any (fun g => groupParses g row) = true) := by
  simp only [processRow, pyStr_isEmpty_false h, Bool.false_eq_true, if_false]
  rw [valueFold_flag]
  simp

theorem processRow_quotes (cfg : ImportCfg) (st : Store) (row : Row)
    (h : pyStr (rowGet row cfg.product_col (Cell.str "")) ≠ "") :
    (processRow cfg st row).1.quotes =
      st.quotes ++ [⟨st.nextQuoteId,
        (match st.products.find? (fun r => r.normalized =
            some (normalize_product_name (pyStr (rowGet row cfg.product_col (Cell.str ""))))) with
          | some r => r.id
          | none => st.nextProductId),
        "导入_" ++ cfg.temp_id, cfg.now⟩] := by
  simp only [processRow, pyStr_isEmpty_false h, Bool.false_eq_true, if_false]
  rcases hf : st.products.find? (fun r => r.normalized =
      some (normalize_product_name (pyStr (rowGet row cfg.product_col (Cell.str ""))))) with _ | r
  · simp [hf]
  · simp [hf]

theorem processRow_products (cfg : ImportCfg) (st : Store) (row : Row)
    (h : pyStr (rowGet row cfg.product_col (Cell.str "")) ≠ "")
    (hf : st.products.find? (fun r => r.normalized =
      some (normalize_product_name (pyStr (rowGet row cfg.product_col (Cell.str ""))))) = none) :
    (processRow cfg st row).1.products =
      st.products ++ [⟨st.nextProductId, pyStr (rowGet row cfg.product_col (Cell.str "")),
        some (normalize_product_name (pyStr (rowGet row cfg.product_col (Cell.str "")))),
        cfg.now⟩] := by
  simp only [processRow, pyStr_isEmpty_false h, Bool.false_eq_true, if_false, hf]

/-- C1 counterexample: a row whose single value group parses but collides
with an existing `(product, company, period)` record under `mode = skip`:
nothing is written (`price_meta` is unchanged), yet the row is counted a
success, refuting "success if and only if at least one value group was
actually written". -/
theorem c1_counterexample :
    (processRow ⟨"p", [⟨some "v", some "c", none⟩], none, "2024-01", "skip", "t", "T", "2024-05"⟩
        ⟨[⟨1, "x", some "x", "T"⟩], 2, [], 1,
         [⟨1, 1, "2024-01", "c", 5, "中标价(默认)", "T"⟩], 2, []⟩
        [("p", Cell.str "x"), ("v", Cell.str "9")]).2 = true ∧
    (processRow ⟨"p", [⟨some "v", some "c", none⟩], none, "2024-01", "skip", "t", "T", "2024-05"⟩
        ⟨[⟨1, "x", some "x", "T"⟩], 2, [], 1,
         [⟨1, 1, "2024-01", "c", 5, "中标价(默认)", "T"⟩], 2, []⟩
        [("p", Cell.str "x"), ("v", Cell.str "9")]).1.price_meta =
      [⟨1, 1, "2024-01", "c", 5, "中标价(默认)", "T"⟩] := by
  exact ⟨by decide, by decide⟩

/-- C1 (amended): a row with an empty stringified name cell is skipped
with no counter change; any other row is counted a success exactly when at
least one value group parses (column and company present and non-empty,
cell parses as a number) — whether or not the conflict policy then writes
anything. -/
theorem c1_amended :
    (∀ (cfg : ImportCfg) (st : Store) (row : Row),
      pyStr (rowGet row cfg.product_col (Cell.str "")) = "" →
      processRow cfg st row = (st, false)) ∧
    (∀ (cfg : ImportCfg) (st : Store) (row : Row),
      pyStr (rowGet row cfg.product_col (Cell.str "")) ≠ "" →
      ((processRow cfg st row).2 = true ↔
        cfg.price_cols.any (fun g => groupParses g row) = true)) := by
  exact ⟨processRow_blank, processRow_flag⟩

/-- Witness for C1 (amended): the success flag of a concrete non-blank row
equals "some value group parses". -/
theorem c1_witness :
    pyStr (rowGet [("p", Cell.str "x"), ("v", Cell.str "9")] "p" (Cell.str "")) ≠ "" ∧
    ((processRow ⟨"p", [⟨some "v", some "c", none⟩], none, "2024-01", "skip", "t", "T", "2024-05"⟩
        ⟨[], 1, [], 1, [], 1, []⟩ [("p", Cell.str "x"), ("v", Cell.str "9")]).2 = true ↔
      ([⟨some "v", some "c", none⟩] : List PriceColSpec).any
        (fun g => groupParses g [("p", Cell.str "x"), ("v", Cell.str "9")]) = true) :=
  ⟨by decide,
   c1_amended.2 ⟨"p", [⟨some "v", some "c", none⟩], none, "2024-01", "skip", "t", "T", "2024-05"⟩
     ⟨[], 1, [], 1, [], 1, []⟩ [("p", Cell.str "x"), ("v", Cell.str "9")] (by decide)⟩

/-! ## C9: unconditional writes for every non-blank-name row -/

/-- C9: for every row whose stringified name cell is non-empty, the row
loop appends exactly one new `quotes` record (id `nextQuoteId`, source
`导入_<temp_id>`) before any value handling; on a normalized-key miss it
also appends a new `products` record built from the raw name; and when no
value group parses, the row's success flag is false — so the store is
mutated although the row is excluded from both counters. -/
theorem c9 (cfg : ImportCfg) (st : Store) (row : Row)
    (h : pyStr (rowGet row cfg.product_col (Cell.str "")) ≠ "") :
    ((processRow cfg st row).1.quotes =
        st.quotes ++ [⟨st.nextQuoteId,
          (match st.products.find? (fun r => r.normalized =
              some (normalize_product_name (pyStr (rowGet row cfg.product_col (Cell.str ""))))) with
            | some r => r.id
            | none => st.nextProductId),
          "导入_" ++ cfg.temp_id, cfg.now⟩]) ∧
      (st.products.find? (fun r => r.normalized =
          some (normalize_product_name (pyStr (rowGet row cfg.product_col (Cell.str ""))))) = none →
        (processRow cfg st row).1.products =
          st.products ++ [⟨st.nextProductId, pyStr (rowGet row cfg.product_col (Cell.str "")),
            some (normalize_product_name (pyStr (rowGet row cfg.product_col (Cell.str "")))),
            cfg.now⟩]) ∧
      (cfg.price_cols.all (fun g => !(groupParses g row)) = true →
        (processRow cfg st row).2 = false) := by
  refine ⟨processRow_quotes cfg st row h, processRow_products cfg st row h, ?_⟩
  intro hall
  have hany : cfg.price_cols.any (fun g => groupParses g row) = false := by
    rw [List.all_eq_true] at hall
    rw [List.any_eq_false]
    intro g hg
    have := hall g hg
    simpa using this
  rcases hflag : (processRow cfg st row).2 with _ | _
  · rfl
  · have := (processRow_flag cfg st row h).mp hflag
    rw [hany] at this
    exact absurd this (by simp)

/-- Witness for C9: a concrete one-group row with an unparsable value
cell still inserts a quote (and a product) while staying uncounted. -/
theorem c9_witness :
    ((processRow ⟨"p", [⟨some "v", some "c", none⟩], none, "2024-01", "skip", "t", "T", "2024-05"⟩
        ⟨[], 1, [], 1, [], 1, []⟩ [("p", Cell.str "x"), ("v", Cell.str "-")]).1.quotes =
      [] ++ [⟨1, (match ([] : List ProductRow).find? (fun r => r.normalized =
          some (normalize_product_name (pyStr (rowGet [("p", Cell.str "x"), ("v", Cell.str "-")]
            "p" (Cell.str ""))))) with
        | some r => r.id
        | none => 1), "导入_" ++ "t", "T"⟩]) ∧
    (([] : List ProductRow).find? (fun r => r.normalized =
        some (normalize_product_name (pyStr (rowGet [("p", Cell.str "x"), ("v", Cell.str "-")]
          "p" (Cell.str ""))))) = none →
      (processRow ⟨"p", [⟨some "v", some "c", none⟩], none, "2024-01", "skip", "t", "T", "2024-05"⟩
          ⟨[], 1, [], 1, [], 1, []⟩ [("p", Cell.str "x"), ("v", Cell.str "-")]).1.products =
        [] ++ [⟨1, pyStr (rowGet [("p", Cell.str "x"), ("v", Cell.str "-")] "p" (Cell.str "")),
          some (normalize_product_name (pyStr (rowGet [("p", Cell.str "x"), ("v", Cell.str "-")]
            "p" (Cell.str "")))), "T"⟩]) ∧
    (([⟨some "v", some "c", none⟩] : List PriceColSpec).all
        (fun g => !(groupParses g [("p", Cell.str "x"), ("v", Cell.str "-")])) = true →
      (processRow ⟨"p", [⟨some "v", some "c", none⟩], none, "2024-01", "skip", "t", "T", "2024-05"⟩
          ⟨[], 1, [], 1, [], 1, []⟩ [("p", Cell.str "x"), ("v", Cell.str "-")]).2 = false) :=
  c9 ⟨"p", [⟨some "v", some "c", none⟩], none, "2024-01", "skip", "t", "T", "2024-05"⟩
    ⟨[], 1, [], 1, [], 1, []⟩ [("p", Cell.str "x"), ("v", Cell.str "-")] (by decide)

/-! ## C10: null/NaN name cells are imported under their literal -/

/-- C10: the silent exclusion fires only when the stringified name cell is
exactly the empty string; a `nan` cell stringifies to `"nan"` and a `None`
cell to `"None"`, so such rows are not excluded — a `nan`-named row
mutates the store, creating its product under the literal name `"nan"` on
a catalog miss. -/
theorem c10 :
    (pyStr Cell.nan = "nan" ∧ pyStr Cell.pynone = "None") ∧
    (∀ (cfg : ImportCfg) (st : Store) (row : Row),
      pyStr (rowGet row cfg.product_col (Cell.str "")) = "" →
      processRow cfg st row = (st, false)) ∧
    (∀ (cfg : ImportCfg) (st : Store) (row : Row),
      rowGet row cfg.product_col (Cell.str "") = Cell.nan →
      (processRow cfg st row).1.quotes =
        st.quotes ++ [⟨st.nextQuoteId,
          (match st.products.find? (fun r => r.normalized =
              some (normalize_product_name "nan")) with
            | some r => r.id
            | none => st.nextProductId),
          "导入_" ++ cfg.temp_id, cfg.now⟩] ∧
      (st.products.find? (fun r => r.normalized = some (normalize_product_name "nan")) = none →
        (processRow cfg st row).1.products =
          st.products ++ [⟨st.nextProductId, "nan",
            some (normalize_product_name "nan"), cfg.now⟩])) := by
  refine ⟨⟨rfl, rfl⟩, processRow_blank, ?_⟩
  intro cfg st row hc
  have hne : pyStr (rowGet row cfg.product_col (Cell.str "")) ≠ "" := by rw [hc]; decide
  have hq := processRow_quotes cfg st row hne
  rw [hc] at hq
  refine ⟨hq, ?_⟩
  intro hf
  have hp := processRow_products cfg st row hne (by rw [hc]; exact hf)
  rw [hc] at hp
  exact hp

/-- Witness for C10: a concrete row with a `nan` name cell against an
empty catalog inserts a quote and creates the product `"nan"`. -/
theorem c10_witness :
    (processRow ⟨"p", [], none, "", "skip", "t", "T", "2024-05"⟩ ⟨[], 5, [], 3, [], 1, []⟩
        [("p", Cell.nan)]).1.quotes =
      [] ++ [⟨3, (match ([] : List ProductRow).find? (fun r => r.normalized =
          some (normalize_product_name "nan")) with
        | some r => r.id
        | none => 5), "导入_" ++ "t", "T"⟩] ∧
    (([] : List ProductRow).find? (fun r => r.normalized =
        some (normalize_product_name "nan")) = none →
      (processRow ⟨"p", [], none, "", "skip", "t", "T", "2024-05"⟩ ⟨[], 5, [], 3, [], 1, []⟩
          [("p", Cell.nan)]).1.products =
        [] ++ [⟨5, "nan", some (normalize_product_name "nan"), "T"⟩]) :=
  c10.2.2 ⟨"p", [], none, "", "skip", "t", "T", "2024-05"⟩ ⟨[], 5, [], 3, [], 1, []⟩
    [("p", Cell.nan)] (by decide)

/-! ## C2: where mapping validation happens -/

/-- C2 counterexample: submitting a mapping with no product column and no
value groups succeeds synchronously (`ok`, not an error), creates the
`pending` task row, and the already-created task later transitions to
`failed` — refuting both "fails synchronously to the caller" and "no task
record is created". -/
theorem c2_counterexample :
    api_import_execute_pipeline true true ⟨none, [], none⟩ "" "skip" "t" "T" "2024-05" []
        (fun _ => none) "id" ⟨[], 1, [], 1, [], 1, []⟩ =
      (ApiResp.ok,
       [⟨"pending", none, none, none, none⟩, ⟨"processing", none, none, none, none⟩,
        ⟨"failed", none, none, none, some "必须指定产品列"⟩],
       ⟨[], 1, [], 1, [], 1, []⟩) ∧
    (api_import_execute_pipeline true true ⟨none, [], none⟩ "" "skip" "t" "T" "2024-05" []
        (fun _ => none) "id" ⟨[], 1, [], 1, [], 1, []⟩).2.1 ≠ [] := by
  exact ⟨by decide, by decide⟩

/-- C2 (amended): a submitted `column_mapping` lacking a (truthy) product
column or containing no value-column group is accepted synchronously: the
task row is created (`pending`), the submission returns success, and the
validation failure surfaces later as a task-level failure — the task row
ends in status `failed` with the validation message, the store untouched. -/
theorem c2_amended (m : Mapping) (gm mode temp now nowMonth : String) (df : List Row)
    (oracle : Nat → Option String) (task : String) (st0 : Store)
    (h : mappingProductOk m = false ∨ m.price_cols = []) :
    ∃ msg, api_import_execute_pipeline true true m gm mode temp now nowMonth df oracle task st0 =
      (ApiResp.ok,
       [⟨"pending", none, none, none, none⟩, ⟨"processing", none, none, none, none⟩,
        ⟨"failed", none, none, none, some msg⟩], st0) := by
  by_cases hok : mappingProductOk m = true
  · rcases h with h | h
    · rw [hok] at h; exact absurd h (by simp)
    · refine ⟨"必须至少指定一个价格列", ?_⟩
      simp [api_import_execute_pipeline, process_quote_import, hok, h]
  · have hbad : mappingProductOk m = false := by
      rcases hb : mappingProductOk m with _ | _
      · rfl
      · exact absurd hb hok
    refine ⟨"必须指定产品列", ?_⟩
    simp [api_import_execute_pipeline, process_quote_import, hbad]

/-- Witness for C2 (amended): a mapping with a product column but an
empty `price_cols` list. -/
theorem c2_witness :
    ∃ msg, api_import_execute_pipeline true true ⟨some "p", [], none⟩ "" "skip" "t" "T"
        "2024-05" [] (fun _ => none) "id" ⟨[], 1, [], 1, [], 1, []⟩ =
      (ApiResp.ok,
       [⟨"pending", none, none, none, none⟩, ⟨"processing", none, none, none, none⟩,
        ⟨"failed", none, none, none, some msg⟩], ⟨[], 1, [], 1, [], 1, []⟩) :=
  c2_amended ⟨some "p", [], none⟩ "" "skip" "t" "T" "2024-05" [] (fun _ => none) "id"
    ⟨[], 1, [], 1, [], 1, []⟩ (Or.inr rfl)

/-! ## C7: counter invariants over a task run -/

theorem runRowsChk_mono (cfg : ImportCfg) (oracle : Nat → RowExc) (task : String)
    (total : Nat) (rows : List Row) :
    ∀ (idx : Nat) (st : Store) (s f : Nat),
      s ≤ (runRowsChk cfg oracle task total rows idx st s f).2.1 ∧
      f ≤ (runRowsChk cfg oracle task total rows idx st s f).2.2.1 ∧
      (∀ t ∈ (runRowsChk cfg oracle task total rows idx st s f).2.2.2, ∃ si fi,
        t = ⟨"processing", some total, some si, some fi, none⟩ ∧ s ≤ si ∧ f ≤ fi ∧
        si ≤ (runRowsChk cfg oracle task total rows idx st s f).2.1 ∧
        fi ≤ (runRowsChk cfg oracle task total rows idx st s f).2.2.1) ∧
      List.Pairwise counterLE (runRowsChk cfg oracle task total rows idx st s f).2.2.2 := by
  induction rows with
  | nil =>
    intro idx st s f
    simp only [runRowsChk]
    exact ⟨le_refl s, le_refl f, by simp, List.Pairwise.nil⟩
  | cons row rest ih =>
    intro idx st s f
    rcases horacle : oracle idx with _ | msg | msg
    · -- the row completes without an exception
      simp only [runRowsChk, horacle]
      rcases hblank : (pyStr (rowGet row cfg.product_col (Cell.str ""))).isEmpty with _ | _
      · simp only [hblank, Bool.false_eq_true, if_false]
        set pr := processRow cfg st row with hpr
        set s2 := if pr.2 then s + 1 else s with hs2
        have hs2le : s ≤ s2 := by
          rw [hs2]; split <;> omega
        have ihx := ih (idx + 1) pr.1 s2 f
        rcases hout : runRowsChk cfg oracle task total rest (idx + 1) pr.1 s2 f with
          ⟨st', rest'⟩
        rcases rest' with ⟨s', rest''⟩
        rcases rest'' with ⟨f', snaps⟩
        rw [hout] at ihx
        simp only at ihx ⊢
        obtain ⟨ih1, ih2, ih4, ih5⟩ := ihx
        refine ⟨le_trans hs2le ih1, ih2, ?_, ?_⟩
        · intro t ht
          rcases List.mem_append.mp ht with ht | ht
          · rcases hcp : checkpointNeeded idx total with _ | _
            · rw [hcp] at ht; simp at ht
            · rw [hcp] at ht
              simp only [if_true, List.mem_singleton] at ht
              exact ⟨s2, f, ht, hs2le, le_refl f, ih1, ih2⟩
          · obtain ⟨si, fi, h1, h2, h3, h4, h5⟩ := ih4 t ht
            exact ⟨si, fi, h1, le_trans hs2le h2, h3, h4, h5⟩
        · rw [List.pairwise_append]
          refine ⟨?_, ih5, ?_⟩
          · rcases hcp : checkpointNeeded idx total with _ | _ <;> simp
          · intro a ha b hb
            rcases hcp : checkpointNeeded idx total with _ | _
            · rw [hcp] at ha; simp at ha
            · rw [hcp] at ha
              simp only [if_true, List.mem_singleton] at ha
              obtain ⟨si, fi, h1, h2, h3, h4, h5⟩ := ih4 b hb
              rw [ha, h1]
              exact ⟨by simp, by simpa using h2, by simpa using h3⟩
      · simp only [hblank, if_true]
        exact ih (idx + 1) st s f
    · -- a body exception: the except records the error and counts a failure
      simp only [runRowsChk, horacle]
      have ihx := ih (idx + 1)
        { st with import_errors := st.import_errors ++ [⟨task, idx + 1, row, msg⟩] }
        s (f + 1)
      rcases hout : runRowsChk cfg oracle task total rest (idx + 1)
        { st with import_errors := st.import_errors ++ [⟨task, idx + 1, row, msg⟩] }
        s (f + 1) with ⟨st', rest'⟩
      rcases rest' with ⟨s', rest''⟩
      rcases rest'' with ⟨f', snaps⟩
      rw [hout] at ihx
      simp only at ihx ⊢
      obtain ⟨ih1, ih2, ih4, ih5⟩ := ihx
      refine ⟨ih1, by omega, ?_, ih5⟩
      intro t ht
      obtain ⟨si, fi, h1, h2, h3, h4, h5⟩ := ih4 t ht
      exact ⟨si, fi, h1, h2, by omega, h4, h5⟩
    · -- a checkpoint-write exception: the completed row keeps its success
      -- increment and is counted failed as well; no snapshot commits
      simp only [runRowsChk, horacle]
      rcases hblank : (pyStr (rowGet row cfg.product_col (Cell.str ""))).isEmpty with _ | _
      · simp only [hblank, Bool.false_eq_true, if_false]
        set pr := processRow cfg st row with hpr
        set s2 := if pr.2 then s + 1 else s with hs2
        have hs2le : s ≤ s2 := by
          rw [hs2]; split <;> omega
        rcases hcp : checkpointNeeded idx total with _ | _
        · simp only [hcp, Bool.false_eq_true, if_false]
          have ihx := ih (idx + 1) pr.1 s2 f
          rcases hout : runRowsChk cfg oracle task total rest (idx + 1) pr.1 s2 f with
            ⟨st', rest'⟩
          rcases rest' with ⟨s', rest''⟩
          rcases rest'' with ⟨f', snaps⟩
          rw [hout] at ihx
          simp only at ihx ⊢
          obtain ⟨ih1, ih2, ih4, ih5⟩ := ihx
          refine ⟨le_trans hs2le ih1, ih2, ?_, ih5⟩
          intro t ht
          obtain ⟨si, fi, h1, h2, h3, h4, h5⟩ := ih4 t ht
          exact ⟨si, fi, h1, le_trans hs2le h2, h3, h4, h5⟩
        · simp only [hcp, if_true]
          have ihx := ih (idx + 1)
            { pr.1 with import_errors := pr.1.import_errors ++ [⟨task, idx + 1, row, msg⟩] }
            s2 (f + 1)
          rcases hout : runRowsChk cfg oracle task total rest (idx + 1)
            { pr.1 with import_errors := pr.1.import_errors ++ [⟨task, idx + 1, row, msg⟩] }
            s2 (f + 1) with ⟨st', rest'⟩
          rcases rest' with ⟨s', rest''⟩
          rcases rest'' with ⟨f', snaps⟩
          rw [hout] at ihx
          simp only at ihx ⊢
          obtain ⟨ih1, ih2, ih4, ih5⟩ := ihx
          refine ⟨le_trans hs2le ih1, by omega, ?_, ih5⟩
          intro t ht
          obtain ⟨si, fi, h1, h2, h3, h4, h5⟩ := ih4 t ht
          exact ⟨si, fi, h1, le_trans hs2le h2, by omega, h4, h5⟩
      · simp only [hblank, if_true]
        exact ih (idx + 1) st s f

theorem runRowsChk_bound (cfg : ImportCfg) (oracle : Nat → RowExc) (task : String)
    (total : Nat) (hB : ∀ i msg, oracle i ≠ RowExc.checkpoint msg) (rows : List Row) :
    ∀ (idx : Nat) (st : Store) (s f : Nat), idx + rows.length = total → s + f ≤ idx →
      (runRowsChk cfg oracle task total rows idx st s f).2.1 +
        (runRowsChk cfg oracle task total rows idx st s f).2.2.1 ≤ total ∧
      ∀ t ∈ (runRowsChk cfg oracle task total rows idx st s f).2.2.2, ∃ si fi,
        t = ⟨"processing", some total, some si, some fi, none⟩ ∧ si + fi ≤ total := by
  induction rows with
  | nil =>
    intro idx st s f htot hsf
    simp only [runRowsChk, List.length_nil, Nat.add_zero] at htot ⊢
    exact ⟨by omega, by simp⟩
  | cons row rest ih =>
    intro idx st s f htot hsf
    simp only [List.length_cons] at htot
    rcases horacle : oracle idx with _ | msg | msg
    · simp only [runRowsChk, horacle]
      rcases hblank : (pyStr (rowGet row cfg.product_col (Cell.str ""))).isEmpty with _ | _
      · simp only [hblank, Bool.false_eq_true, if_false]
        set pr := processRow cfg st row with hpr
        set s2 := if pr.2 then s + 1 else s with hs2
        have hs2le : s ≤ s2 ∧ s2 ≤ s + 1 := by
          rw [hs2]; split <;> omega
        have ihx := ih (idx + 1) pr.1 s2 f (by omega) (by omega)
        rcases hout : runRowsChk cfg oracle task total rest (idx + 1) pr.1 s2 f with
          ⟨st', rest'⟩
        rcases rest' with ⟨s', rest''⟩
        rcases rest'' with ⟨f', snaps⟩
        rw [hout] at ihx
        simp only at ihx ⊢
        obtain ⟨ih3, ih6⟩ := ihx
        refine ⟨ih3, ?_⟩
        intro t ht
        rcases List.mem_append.mp ht with ht | ht
        · rcases hcp : checkpointNeeded idx total with _ | _
          · rw [hcp] at ht; simp at ht
          · rw [hcp] at ht
            simp only [if_true, List.mem_singleton] at ht
            exact ⟨s2, f, ht, by omega⟩
        · exact ih6 t ht
      · simp only [hblank, if_true]
        exact ih (idx + 1) st s f (by omega) (by omega)
    · simp only [runRowsChk, horacle]
      exact ih (idx + 1)
        { st with import_errors := st.import_errors ++ [⟨task, idx + 1, row, msg⟩] }
        s (f + 1) (by omega) (by omega)
    · exact absurd horacle (hB idx msg)

/-- C7 counterexample: the per-row `try` of `_process_quote_import` also
covers `success_count += 1` and the checkpoint `UPDATE`/`commit`, so a
checkpoint-write failure counts an already-successful row as failed too.
With 101 rows — 99 raising in the body, the hundredth succeeding but its
checkpoint write raising, the last succeeding — the final-row checkpoint
persists a `processing` row with `success = 2`, `failed = 100`,
`total = 101`: `success + failed = total + 1`, refuting
`success + failed ≤ total` at a processing checkpoint. -/
theorem c7_counterexample :
    ∃ t ∈ (api_import_execute_pipeline_chk true true
        ⟨some "p", [⟨some "v", some "c", none⟩], none⟩ "2024-01" "skip" "t" "T" "2024-05"
        (List.replicate 101 [("p", Cell.str "x"), ("v", Cell.str "9")])
        (fun i => if i = 99 then RowExc.checkpoint "database is locked"
          else if i = 100 then RowExc.ok else RowExc.body "bad row") "id"
        ⟨[], 1, [], 1, [], 1, []⟩).2.1,
      t.status = "processing" ∧ t.total.getD 0 < t.success.getD 0 + t.failed.getD 0 := by
  refine ⟨⟨"processing", some 101, some 2, some 100, none⟩, ?_, rfl, by decide⟩
  decide

/-- C7 (amended): over every run of the task pipeline — any mapping,
conflict mode, data frame and per-row exception pattern at any raise
point — the persisted `total`, `success` and `failed` are monotonically
non-decreasing across the whole commit history; and whenever no
checkpoint write itself raises, every persisted task row with status
`processing` also satisfies `success + failed ≤ total` (absent counters
reading as 0).  The bound is conditional because a raise during the
checkpoint write lands in the same per-row `except` after the success
increment, counting one row in both counters. -/
theorem c7_amended (h1 h2 : Bool) (m : Mapping) (gm mode temp now nowMonth : String)
    (df : List Row) (oracle : Nat → RowExc) (task : String) (st0 : Store) :
    List.Pairwise counterLE
      (api_import_execute_pipeline_chk h1 h2 m gm mode temp now nowMonth df oracle task
        st0).2.1 ∧
    ((∀ i msg, oracle i ≠ RowExc.checkpoint msg) →
      ∀ t ∈ (api_import_execute_pipeline_chk h1 h2 m gm mode temp now nowMonth df oracle task
          st0).2.1,
        t.status = "processing" → t.success.getD 0 + t.failed.getD 0 ≤ t.total.getD 0) := by
  rcases hgate : (!h1 || !h2) with _ | _
  · simp only [api_import_execute_pipeline_chk, hgate, Bool.false_eq_true, if_false]
    by_cases hok : mappingProductOk m = true
    · by_cases hpcs : m.price_cols.isEmpty = true
      · simp only [process_quote_import_chk, hok, Bool.not_true, Bool.false_eq_true, if_false,
          hpcs, if_true]
        refine ⟨?_, ?_⟩
        · refine List.Pairwise.cons ?_ (List.Pairwise.cons ?_ (List.Pairwise.cons ?_ ?_))
          all_goals simp [counterLE]
        · intro _ t ht
          simp only [List.mem_cons, List.not_mem_nil, or_false] at ht
          rcases ht with rfl | rfl | rfl
          · intro hstat; exact absurd hstat (by decide)
          · intro _; simp
          · intro hstat; exact absurd hstat (by decide)
      · simp only [process_quote_import_chk, hok, Bool.not_true, Bool.false_eq_true, if_false,
          hpcs, if_false]
        have hmono := runRowsChk_mono ⟨m.product.getD "", m.price_cols, m.date, gm, mode, temp,
          now, nowMonth⟩ oracle task df.length df 0 st0 0 0
        rcases hout : runRowsChk ⟨m.product.getD "", m.price_cols, m.date, gm, mode, temp,
          now, nowMonth⟩ oracle task df.length df 0 st0 0 0 with ⟨st', rest'⟩
        rcases rest' with ⟨s', rest''⟩
        rcases rest'' with ⟨f', snaps⟩
        rw [hout] at hmono
        simp only at hmono ⊢
        obtain ⟨hm1, hm2, hm4, hm5⟩ := hmono
        constructor
        · simp only [List.cons_append, List.nil_append]
          refine List.Pairwise.cons ?_ (List.Pairwise.cons ?_ (List.Pairwise.cons ?_ ?_))
          · intro b hb; simp [counterLE]
          · intro b hb; simp [counterLE]
          · intro b hb
            simp only [List.mem_append, List.mem_singleton] at hb
            rcases hb with hb | rfl
            · obtain ⟨si, fi, hteq, _, _, _, _⟩ := hm4 b hb
              rw [hteq]
              simp [counterLE]
            · simp [counterLE]
          · rw [List.pairwise_append]
            refine ⟨hm5, by simp, ?_⟩
            intro a ha b hb
            simp only [List.mem_singleton] at hb
            obtain ⟨si, fi, hteq, _, _, h4, h5⟩ := hm4 a ha
            rw [hteq, hb]
            exact ⟨by simp, by simpa using h4, by simpa using h5⟩
        · intro hB t ht
          have hbound := runRowsChk_bound ⟨m.product.getD "", m.price_cols, m.date, gm, mode,
            temp, now, nowMonth⟩ oracle task df.length hB df 0 st0 0 0 (by omega) (by omega)
          rw [hout] at hbound
          simp only at hbound
          obtain ⟨hb3, hb6⟩ := hbound
          simp only [List.mem_cons, List.cons_append, List.nil_append, List.mem_append,
            List.mem_singleton, List.not_mem_nil, or_false, false_or] at ht
          rcases ht with rfl | rfl | rfl | ht | rfl
          · intro hstat; exact absurd hstat (by decide)
          · intro _; simp
          · intro _; simp
          · obtain ⟨si, fi, hteq, h6⟩ := hb6 t ht
            intro _
            rw [hteq]
            simpa using h6
          · intro hstat; simp at hstat
    · have hbad : mappingProductOk m = false := by
        rcases hb : mappingProductOk m with _ | _
        · rfl
        · exact absurd hb hok
      simp only [process_quote_import_chk, hbad, Bool.not_false, if_true]
      refine ⟨?_, ?_⟩
      · refine List.Pairwise.cons ?_ (List.Pairwise.cons ?_ (List.Pairwise.cons ?_ ?_))
        all_goals simp [counterLE]
      · intro _ t ht
        simp only [List.mem_cons, List.not_mem_nil, or_false] at ht
        rcases ht with rfl | rfl | rfl
        · intro hstat; exact absurd hstat (by decide)
        · intro _; simp
        · intro hstat; exact absurd hstat (by decide)
  · simp only [api_import_execute_pipeline_chk, hgate, if_true]
    exact ⟨List.Pairwise.nil, fun _ => by simp⟩

/-- Witness for C7 (amended): a concrete two-row run whose second row
raises in its body — no checkpoint write raises, so both the monotone
trace and the `success + failed ≤ total` bound hold. -/
theorem c7_witness :
    List.Pairwise counterLE
      (api_import_execute_pipeline_chk true true ⟨some "p", [⟨some "v", some "c", none⟩], none⟩
        "2024-01" "skip" "t" "T" "2024-05"
        [[("p", Cell.str "x"), ("v", Cell.str "9")], [("p", Cell.str "y")]]
        (fun i => if i = 1 then RowExc.body "boom" else RowExc.ok) "id"
        ⟨[], 1, [], 1, [], 1, []⟩).2.1 ∧
    (∀ t ∈ (api_import_execute_pipeline_chk true true
        ⟨some "p", [⟨some "v", some "c", none⟩], none⟩ "2024-01" "skip" "t" "T" "2024-05"
        [[("p", Cell.str "x"), ("v", Cell.str "9")], [("p", Cell.str "y")]]
        (fun i => if i = 1 then RowExc.body "boom" else RowExc.ok) "id"
        ⟨[], 1, [], 1, [], 1, []⟩).2.1,
      t.status = "processing" → t.success.getD 0 + t.failed.getD 0 ≤ t.total.getD 0) :=
  ⟨(c7_amended true true ⟨some "p", [⟨some "v", some "c", none⟩], none⟩ "2024-01" "skip" "t"
      "T" "2024-05" [[("p", Cell.str "x"), ("v", Cell.str "9")], [("p", Cell.str "y")]]
      (fun i => if i = 1 then RowExc.body "boom" else RowExc.ok) "id"
      ⟨[], 1, [], 1, [], 1, []⟩).1,
   (c7_amended true true ⟨some "p", [⟨some "v", some "c", none⟩], none⟩ "2024-01" "skip" "t"
      "T" "2024-05" [[("p", Cell.str "x"), ("v", Cell.str "9")], [("p", Cell.str "y")]]
      (fun i => if i = 1 then RowExc.body "boom" else RowExc.ok) "id"
      ⟨[], 1, [], 1, [], 1, []⟩).2
     (by intro i msg h; by_cases hi : i = 1 <;> simp [hi] at h)⟩

/-! ## Bracket-removal lemmas (C8, and stage 2 of the C3 idempotence) -/

theorem findClose_none_no_close :
    ∀ {l : List Char}, '\n' ∉ l → findClose l = none → ∀ c ∈ l, isCloseB c = false := by
  intro l
  induction l with
  | nil => intro _ _ c hc; simp at hc
  | cons a rest ih =>
    intro hnl hfc c hc
    simp only [findClose] at hfc
    rcases hcl : isCloseB a with _ | _
    · rw [hcl] at hfc
      simp only [Bool.false_eq_true, if_false] at hfc
      have hne : a ≠ '\n' := fun h => hnl (h ▸ List.mem_cons_self a rest)
      rw [if_neg hne] at hfc
      rcases List.mem_cons.mp hc with rfl | hc'
      · exact hcl
      · exact ih (fun hm => hnl (List.mem_cons_of_mem a hm)) (by
          rcases hfr : findClose rest with _ | j
          · rfl
          · rw [hfr] at hfc; simp at hfc) c hc'
    · rw [hcl] at hfc
      simp at hfc

theorem findClose_none_of_no_close :
    ∀ {l : List Char}, (∀ c ∈ l, isCloseB c = false) → findClose l = none := by
  intro l
  induction l with
  | nil => intro _; rfl
  | cons a rest ih =>
    intro h
    simp only [findClose, h a (List.mem_cons_self a rest), Bool.false_eq_true, if_false]
    split
    · rfl
    · rw [ih (fun c hc => h c (List.mem_cons_of_mem a hc))]
      rfl

theorem removeBracketsF_sublist (fuel : Nat) :
    ∀ l : List Char, (removeBracketsF fuel l).Sublist l := by
  induction fuel with
  | zero => intro l; cases l <;> simp [removeBracketsF]
  | succ fuel ih =>
    intro l
    cases l with
    | nil => simp [removeBracketsF]
    | cons c rest =>
      simp only [removeBracketsF]
      split
      · rcases hfc : findClose rest with _ | j
        · simp only
          exact List.Sublist.cons₂ c (ih rest)
        · simp only
          exact ((ih (rest.drop (j + 1))).trans (List.drop_sublist (j + 1) rest)).trans
            (List.sublist_cons_self c rest)
      · exact List.Sublist.cons₂ c (ih rest)

theorem noc_nil : NoOpenClose [] := by
  intro x y hxy _ _
  simp [List.sublist_nil] at hxy

theorem noc_cons {c : Char} {l : List Char} (h : NoOpenClose (c :: l)) : NoOpenClose l :=
  fun x y hxy hx hy => h x y (List.Sublist.cons c hxy) hx hy

theorem noc_sublist {m l : List Char} (hs : m.Sublist l) (h : NoOpenClose l) :
    NoOpenClose m :=
  fun x y hxy hx hy => h x y (hxy.trans hs) hx hy

theorem noc_head_no_close {c : Char} {l : List Char} (h : NoOpenClose (c :: l))
    (hc : isOpenB c = true) : ∀ y ∈ l, isCloseB y = false := by
  intro y hy
  rcases hcl : isCloseB y with _ | _
  · rfl
  · exact (h c y (List.Sublist.cons₂ c (List.singleton_sublist.mpr hy)) hc hcl).elim

theorem removeBracketsF_noop (fuel : Nat) :
    ∀ l : List Char, NoOpenClose l → removeBracketsF fuel l = l := by
  induction fuel with
  | zero => intro l _; cases l <;> rfl
  | succ fuel ih =>
    intro l h
    cases l with
    | nil => rfl
    | cons c rest =>
      simp only [removeBracketsF]
      rcases hop : isOpenB c with _ | _
      · simp only [Bool.false_eq_true, if_false, ih rest (noc_cons h)]
      · simp only [if_true]
        rw [findClose_none_of_no_close (noc_head_no_close h hop)]
        simp only [ih rest (noc_cons h)]

theorem removeBracketsF_noc (fuel : Nat) :
    ∀ l : List Char, l.length ≤ fuel → '\n' ∉ l →
      NoOpenClose (removeBracketsF fuel l) := by
  induction fuel with
  | zero =>
    intro l hl _
    have : l = [] := List.length_eq_zero.mp (Nat.le_zero.mp hl)
    subst this
    exact noc_nil
  | succ fuel ih =>
    intro l hl hnl
    cases l with
    | nil => exact noc_nil
    | cons c rest =>
      have hnlr : '\n' ∉ rest := fun hm => hnl (List.mem_cons_of_mem c hm)
      have hlr : rest.length ≤ fuel := by
        simp only [List.length_cons] at hl
        omega
      simp only [removeBracketsF]
      rcases hop : isOpenB c with _ | _
      · simp only [Bool.false_eq_true, if_false]
        intro x y hxy hx hy
        cases hxy with
        | cons _ h' => exact ih rest hlr hnlr x y h' hx hy
        | cons₂ _ h' => rw [hop] at hx; exact absurd hx (by simp)
      · simp only [if_true]
        rcases hfc : findClose rest with _ | j
        · simp only
          have hnc := findClose_none_no_close hnlr hfc
          intro x y hxy hx hy
          cases hxy with
          | cons _ h' => exact ih rest hlr hnlr x y h' hx hy
          | cons₂ _ h' =>
            have hy' : y ∈ rest :=
              (removeBracketsF_sublist fuel rest).subset (List.singleton_sublist.mp h')
            rw [hnc y hy'] at hy
            exact absurd hy (by simp)
        · simp only
          refine ih (rest.drop (j + 1)) ?_ ?_
          · rw [List.length_drop]
            omega
          · intro hm
            exact hnlr (List.mem_of_mem_drop hm)

theorem removeBrackets_noop {l : List Char} (h : NoOpenClose l) : removeBrackets l = l :=
  removeBracketsF_noop l.length l h

theorem removeBrackets_noc {l : List Char} (hnl : '\n' ∉ l) :
    NoOpenClose (removeBrackets l) :=
  removeBracketsF_noc l.length l (le_refl _) hnl

/-! ## C8: how many bracket spans the normalizer removes -/

/-- C8 counterexample: for the two-span input `a(x)b(y)c`, the
bracket-removal stage removes the second span `(y)` and its contents as
well — the result is `abc` with no trace of `y` — refuting "the contents
of the spans after the first are not removed". -/
theorem c8_counterexample :
    removeBrackets ("a(x)b(y)c".toList) = "abc".toList ∧
      normalize_product_name "a(x)b(y)c" = "abc" ∧ 'y' ∉ "abc".toList := by
  exact ⟨by decide, by decide, by decide⟩

/-- C8 (amended): the bracket-removal step removes every lazily-matched,
non-overlapping bracket-delimited span, not only the first: on any
newline-free input, no opening bracket in its output is ever followed by a
closing bracket (so no removable span remains). -/
theorem c8_amended (l : List Char) (hnl : '\n' ∉ l) :
    NoOpenClose (removeBrackets l) :=
  removeBrackets_noc hnl

/-- Witness for C8 (amended): the two-span input. -/
theorem c8_witness : NoOpenClose (removeBrackets ("a(x)b(y)c".toList)) :=
  c8_amended ("a(x)b(y)c".toList) (by decide)

/-! ## Unit-removal lemmas (stage 3 of the C3 idempotence) -/

theorem wordAlts_sub_unitAlts : ∀ alt ∈ wordAlts, alt ∈ unitAlts := by decide

theorem unitAlts_cases : ∀ alt ∈ unitAlts, alt ∈ wordAlts ∨ alt = ['k', 'g', '.'] := by decide

theorem wordAlts_ne_nil : ∀ alt ∈ wordAlts, alt ≠ [] := by decide

theorem wordAlts_head_word : ∀ alt ∈ wordAlts, headIsWord alt = true := by decide

theorem wordAlts_all_word : ∀ alt ∈ wordAlts, ∀ c ∈ alt, isWordChar c = true := by decide

theorem wordAlts_len : ∀ alt ∈ wordAlts, alt.length ≤ 2 := by decide

theorem wordAlts_last_word : ∀ alt ∈ wordAlts, isWordChar (alt.getLastD ' ') = true := by
  decide

theorem unitAlts_ne_nil : ∀ alt ∈ unitAlts, alt ≠ [] := by decide

theorem unitAlts_head_word : ∀ alt ∈ unitAlts, headIsWord alt = true := by decide

theorem prefix_decomp {alt cs : List Char} (h : alt.isPrefixOf cs = true) :
    cs = alt ++ cs.drop alt.length := by
  obtain ⟨t, rfl⟩ := List.isPrefixOf_iff_prefix.mp h
  rw [List.drop_left]

theorem headIsWord_append {a t : List Char} (h : a ≠ []) :
    headIsWord (a ++ t) = headIsWord a := by
  cases a with
  | nil => exact absurd rfl h
  | cons x xs => rfl

theorem headIsWord_eq_of_head? {l m : List Char} (h : l.head? = m.head?) :
    headIsWord l = headIsWord m := by
  cases l with
  | nil =>
    cases m with
    | nil => rfl
    | cons y ys => simp at h
  | cons x xs =>
    cases m with
    | nil => simp at h
    | cons y ys =>
      simp only [List.head?_cons, Option.some.injEq] at h
      rw [h]
      rfl

theorem altOK_true {p : Bool} {cs alt : List Char} (halt : alt ∈ unitAlts)
    (h : altOK p cs alt = true) :
    alt.isPrefixOf cs = true ∧ p = false ∧
      trailingOKP alt (cs.drop alt.length) = true := by
  simp only [altOK, Bool.and_eq_true] at h
  obtain ⟨⟨h1, h2⟩, h3⟩ := h
  refine ⟨h1, ?_, h3⟩
  have hcs : headIsWord cs = true := by
    rw [prefix_decomp h1, headIsWord_append (unitAlts_ne_nil alt halt)]
    exact unitAlts_head_word alt halt
  rw [hcs] at h2
  rcases p with _ | _
  · rfl
  · simp at h2

theorem unitFind_some {p : Bool} {cs alt : List Char} (h : unitFind p cs = some alt) :
    alt ∈ unitAlts ∧ altOK p cs alt = true :=
  ⟨List.mem_of_find?_eq_some h, List.find?_some h⟩

theorem unitFind_none {p : Bool} {cs : List Char} (h : unitFind p cs = none) :
    ∀ alt ∈ unitAlts, altOK p cs alt = false := by
  intro alt halt
  have := List.find?_eq_none.mp h alt halt
  simpa using this

theorem unitFind_true (cs : List Char) : unitFind true cs = none := by
  rcases h : unitFind true cs with _ | alt
  · rfl
  · obtain ⟨halt, hok⟩ := unitFind_some h
    obtain ⟨_, hp, _⟩ := altOK_true halt hok
    exact absurd hp (by simp)

theorem altOK_kg_of_kgdot {p : Bool} {cs : List Char}
    (h : altOK p cs ['k', 'g', '.'] = true) : altOK p cs ['k', 'g'] = true := by
  simp only [altOK, Bool.and_eq_true] at h ⊢
  obtain ⟨⟨h1, h2⟩, _⟩ := h
  have hd := prefix_decomp h1
  refine ⟨⟨?_, h2⟩, ?_⟩
  · rw [hd]
    rfl
  · rw [hd]
    rfl

theorem unitFind_ne_kgdot {p : Bool} {cs : List Char} :
    unitFind p cs ≠ some ['k', 'g', '.'] := by
  intro h
  have hok := List.find?_some h
  have hkg := altOK_kg_of_kgdot hok
  have : unitFind p cs = some ['k', 'g'] := by
    unfold unitFind unitAlts
    rw [List.find?_cons_of_pos _ hkg]
  rw [this] at h
  simp at h

theorem unitFind_some_wordAlt {p : Bool} {cs alt : List Char}
    (h : unitFind p cs = some alt) : alt ∈ wordAlts := by
  obtain ⟨halt, _⟩ := unitFind_some h
  rcases unitAlts_cases alt halt with hw | rfl
  · exact hw
  · exact absurd h unitFind_ne_kgdot

theorem unitFind_some_last_word {p : Bool} {cs alt : List Char}
    (h : unitFind p cs = some alt) : isWordChar (alt.getLastD ' ') = true :=
  wordAlts_last_word alt (unitFind_some_wordAlt h)

theorem removeUnitsF_sublist (fuel : Nat) :
    ∀ (p : Bool) (l : List Char), (removeUnitsF fuel p l).Sublist l := by
  induction fuel with
  | zero => intro p l; cases l <;> simp [removeUnitsF]
  | succ fuel ih =>
    intro p l
    cases l with
    | nil => simp [removeUnitsF]
    | cons c rest =>
      simp only [removeUnitsF]
      rcases hf : unitFind p (c :: rest) with _ | alt
      · exact List.Sublist.cons₂ c (ih (isWordChar c) rest)
      · exact (ih _ ((c :: rest).drop alt.length)).trans
          (List.drop_sublist alt.length (c :: rest))

theorem removeUnitsF_true_head (fuel : Nat) (l : List Char) :
    (removeUnitsF fuel true l).head? = l.head? := by
  cases fuel with
  | zero => cases l <;> rfl
  | succ fuel =>
    cases l with
    | nil => rfl
    | cons c rest =>
      simp only [removeUnitsF, unitFind_true]
      rfl

theorem lastWE_cons {p : Bool} {c : Char} {u : List Char} :
    lastWE p (c :: u) = lastWE (isWordChar c) u := by
  cases u with
  | nil => rfl
  | cons d u' =>
    have hne : d :: u' ≠ [] := by simp
    obtain ⟨x, hx⟩ : ∃ x, (d :: u').getLast? = some x :=
      ⟨(d :: u').getLast hne, List.getLast?_eq_getLast _ hne⟩
    simp only [lastWE, List.getLast?_cons_cons, hx]

theorem tfe_cons {p : Bool} {c : Char} {l : List Char} (h : TFE p (c :: l)) :
    TFE (isWordChar c) l := by
  intro u alt v heq halt hl ht
  refine h (c :: u) alt v ?_ halt ?_ ht
  · rw [heq]
    rfl
  · rw [lastWE_cons]
    exact hl

theorem removeUnitsF_noop (fuel : Nat) :
    ∀ (p : Bool) (l : List Char), TFE p l → removeUnitsF fuel p l = l := by
  induction fuel with
  | zero => intro p l _; cases l <;> rfl
  | succ fuel ih =>
    intro p l h
    cases l with
    | nil => rfl
    | cons c rest =>
      simp only [removeUnitsF]
      rcases hf : unitFind p (c :: rest) with _ | alt
      · simp only
        rw [ih (isWordChar c) rest (tfe_cons h)]
      · exfalso
        obtain ⟨halt, hok⟩ := unitFind_some hf
        obtain ⟨h1, hp, h3⟩ := altOK_true halt hok
        refine h [] alt ((c :: rest).drop alt.length) ?_ halt ?_ h3
        · simpa using prefix_decomp h1
        · rw [hp]
          rfl

theorem tfw_nil (p : Bool) : TFW p [] := by
  intro u alt v heq halt _ _
  have h2 := heq.symm
  simp only [List.append_eq_nil] at h2
  exact absurd h2.1.2 (wordAlts_ne_nil alt halt)

theorem removeUnitsF_post (fuel : Nat) :
    ∀ (p : Bool) (l : List Char), l.length ≤ fuel →
      TFW p (removeUnitsF fuel p l) := by
  induction fuel with
  | zero =>
    intro p l hl
    have : l = [] := List.length_eq_zero.mp (Nat.le_zero.mp hl)
    subst this
    exact tfw_nil p
  | succ fuel ih =>
    intro p l hl
    cases l with
    | nil => exact tfw_nil p
    | cons c rest =>
      have hlr : rest.length ≤ fuel := by
        simp only [List.length_cons] at hl
        omega
      simp only [removeUnitsF]
      rcases hf : unitFind p (c :: rest) with _ | alt
      · -- no match at this position
        simp only
        have ih' := ih (isWordChar c) rest hlr
        intro u alt2 v heq halt2 hl2 ht2
        cases u with
        | cons c0 u' =>
          simp only [List.cons_append, List.cons.injEq] at heq
          obtain ⟨rfl, heq'⟩ := heq
          refine ih' u' alt2 v heq' halt2 ?_ ht2
          rw [← lastWE_cons]
          exact hl2
        | nil =>
          have hp : p = false := hl2
          subst hp
          have hlen := wordAlts_len alt2 halt2
          have hnonempty := wordAlts_ne_nil alt2 halt2
          simp only [List.nil_append] at heq
          rcases alt2 with _ | ⟨a1, alt'⟩
          · exact absurd rfl hnonempty
          rcases alt' with _ | ⟨a2, alt''⟩
          · -- single-character alternative [a1] with a1 = c
            simp only [List.cons_append, List.nil_append, List.cons.injEq] at heq
            obtain ⟨rfl, rfl⟩ := heq
            have hcw : isWordChar c = true :=
              wordAlts_all_word _ halt2 c (List.mem_cons_self c [])
            have hknone := unitFind_none hf [c] (wordAlts_sub_unitAlts _ halt2)
            rw [hcw] at ht2
            have hgl : (([c] : List Char).getLastD ' ') = c := rfl
            have hv : headIsWord (removeUnitsF fuel true rest) = false := by
              simp only [trailingOKP, hgl, hcw] at ht2
              rcases hh : headIsWord (removeUnitsF fuel true rest) with _ | _
              · rfl
              · rw [hh] at ht2
                simp at ht2
            have hrest : headIsWord rest = false := by
              rw [← headIsWord_eq_of_head? (removeUnitsF_true_head fuel rest)]
              exact hv
            have hok : altOK false (c :: rest) [c] = true := by
              have hpre : (([c] : List Char).isPrefixOf (c :: rest)) = true := by
                simp [List.isPrefixOf]
              have hhw : headIsWord (c :: rest) = isWordChar c := rfl
              have hdrop : (c :: rest).drop ([c] : List Char).length = rest := rfl
              simp only [altOK, trailingOKP, hgl, hdrop, hpre, hhw, hcw, hrest]
              rfl
            rw [hok] at hknone
            simp at hknone
          rcases alt'' with _ | ⟨a3, alt3⟩
          · -- two-character alternative [a1, a2] with a1 = c
            simp only [List.cons_append, List.nil_append, List.cons.injEq] at heq
            obtain ⟨rfl, heq'⟩ := heq
            have hcw : isWordChar c = true :=
              wordAlts_all_word _ halt2 c (List.mem_cons_self c [a2])
            have ha2w : isWordChar a2 = true :=
              wordAlts_all_word _ halt2 a2 (by simp)
            have hknone := unitFind_none hf [c, a2] (wordAlts_sub_unitAlts _ halt2)
            rw [hcw] at heq'
            -- the scan after `c` starts with `a2`, so `rest` does too
            have hhead : rest.head? = some a2 := by
              rw [← removeUnitsF_true_head fuel rest, heq']
              rfl
            rcases rest with _ | ⟨r0, rt⟩
            · simp at hhead
            simp only [List.head?_cons, Option.some.injEq] at hhead
            have hhead' := hhead.symm
            subst hhead'
            rcases fuel with _ | fuel'
            · simp at hlr
            -- one more scan step: the head `a2` is copied as well
            have hstep : removeUnitsF (fuel' + 1) true (a2 :: rt) =
                a2 :: removeUnitsF fuel' (isWordChar a2) rt := by
              simp only [removeUnitsF, unitFind_true]
            rw [hstep, ha2w] at heq'
            simp only [List.cons.injEq, true_and] at heq'
            subst heq'
            have hgl : (([c, a2] : List Char).getLastD ' ') = a2 := rfl
            have hv : headIsWord (removeUnitsF fuel' true rt) = false := by
              simp only [trailingOKP, hgl, ha2w] at ht2
              rcases hh : headIsWord (removeUnitsF fuel' true rt) with _ | _
              · rfl
              · rw [hh] at ht2
                simp at ht2
            have hrt : headIsWord rt = false := by
              rw [← headIsWord_eq_of_head? (removeUnitsF_true_head fuel' rt)]
              exact hv
            have hok : altOK false (c :: a2 :: rt) [c, a2] = true := by
              have hpre : (([c, a2] : List Char).isPrefixOf (c :: a2 :: rt)) = true := by
                simp [List.isPrefixOf]
              have hhw : headIsWord (c :: a2 :: rt) = isWordChar c := rfl
              have hdrop : (c :: a2 :: rt).drop ([c, a2] : List Char).length = rt := rfl
              simp only [altOK, trailingOKP, hgl, hdrop, hpre, hhw, hcw, ha2w, hrt]
              rfl
            rw [hok] at hknone
            simp at hknone
          · -- alternatives have length at most two
            simp at hlen
      · -- a match at this position: the matched span is removed and the
        -- scan resumes with a word-character predecessor
        simp only
        obtain ⟨halt0, hok⟩ := unitFind_some hf
        obtain ⟨h1, hp, h3⟩ := altOK_true halt0 hok
        subst hp
        have hwa := unitFind_some_wordAlt hf
        have hlw := unitFind_some_last_word hf
        rw [hlw]
        have haltpos : 1 ≤ alt.length :=
          List.length_pos.mpr (wordAlts_ne_nil alt hwa)
        have hlen2 : ((c :: rest).drop alt.length).length ≤ fuel := by
          rw [List.length_drop]
          simp only [List.length_cons] at hl ⊢
          omega
        have ihm := ih true ((c :: rest).drop alt.length) hlen2
        have hhead : headIsWord ((c :: rest).drop alt.length) = false := by
          simp only [trailingOKP, hlw] at h3
          rcases hh : headIsWord ((c :: rest).drop alt.length) with _ | _
          · rfl
          · rw [hh] at h3
            simp at h3
        have hheadout :
            headIsWord (removeUnitsF fuel true ((c :: rest).drop alt.length)) = false := by
          rw [headIsWord_eq_of_head? (removeUnitsF_true_head fuel _)]
          exact hhead
        intro u alt2 v heq halt2 hl2 ht2
        cases u with
        | nil =>
          simp only [List.nil_append] at heq
          have : headIsWord (removeUnitsF fuel true ((c :: rest).drop alt.length)) = true := by
            rw [heq, headIsWord_append (wordAlts_ne_nil _ halt2)]
            exact wordAlts_head_word _ halt2
          rw [hheadout] at this
          exact absurd this (by simp)
        | cons c0 u' =>
          refine ihm (c0 :: u') alt2 v heq halt2 ?_ ht2
          rw [lastWE_cons]
          rw [lastWE_cons] at hl2
          exact hl2

theorem tfw_tfe {p : Bool} {l : List Char} (h : TFW p l) : TFE p l := by
  intro u alt v heq halt hl ht
  rcases unitAlts_cases alt halt with hw | rfl
  · exact h u alt v heq hw hl ht
  · refine h u ['k', 'g'] ('.' :: v) ?_ (by decide) hl ?_
    · rw [heq]
      simp [List.append_assoc]
    · rfl

theorem removeUnits_noop {l : List Char} (h : TFE false l) : removeUnits l = l :=
  removeUnitsF_noop l.length false l h

theorem removeUnits_post (l : List Char) : TFW false (removeUnits l) :=
  removeUnitsF_post l.length false l (le_refl _)

/-! ## Character-class facts -/

theorem space_not_word {c : Char} (h : isSpaceChar c = true) : isWordChar c = false := by
  simp only [isSpaceChar, Bool.or_eq_true, decide_eq_true_eq] at h
  rcases h with ((((rfl | rfl) | rfl) | rfl) | rfl) | rfl <;> decide

theorem word_not_space {c : Char} (h : isWordChar c = true) : isSpaceChar c = false := by
  rcases hs : isSpaceChar c with _ | _
  · rfl
  · rw [space_not_word hs] at h
    exact absurd h (by simp)

theorem open_not_space {c : Char} (h : isOpenB c = true) : isSpaceChar c = false := by
  simp only [isOpenB, Bool.or_eq_true, decide_eq_true_eq] at h
  rcases h with rfl | rfl <;> decide

theorem close_not_space {c : Char} (h : isCloseB c = true) : isSpaceChar c = false := by
  simp only [isCloseB, Bool.or_eq_true, decide_eq_true_eq] at h
  rcases h with rfl | rfl <;> decide

theorem lastWE_indep {p q : Bool} {c : Char} {u : List Char} :
    lastWE p (c :: u) = lastWE q (c :: u) := by
  rw [lastWE_cons, lastWE_cons]

/-! ## Whitespace-collapse lemmas (stage 5 of the C3 idempotence) -/

theorem squeezeWS_cons_nonspace {x : Char} {t : List Char} (h : isSpaceChar x = false) :
    squeezeWS (x :: t) = x :: squeezeWS t := by
  cases t with
  | nil => simp [squeezeWS, h]
  | cons d t' => simp [squeezeWS, h]

theorem squeezeWS_head? :
    ∀ (x : Char) (t : List Char),
      (squeezeWS (x :: t)).head? = some (if isSpaceChar x then ' ' else x) := by
  intro x t
  induction t generalizing x with
  | nil =>
    simp only [squeezeWS]
    split <;> rfl
  | cons d t' ih =>
    simp only [squeezeWS]
    rcases hx : isSpaceChar x with _ | _
    · simp only [Bool.false_and, Bool.false_eq_true, if_false]
      rfl
    · rcases hd : isSpaceChar d with _ | _
      · simp only [Bool.and_false, Bool.false_eq_true, if_false]
        rfl
      · simp only [Bool.and_self, if_true, if_pos]
        rw [ih d, hd]
        simp

theorem squeezeWS_headIsWord (l : List Char) :
    headIsWord (squeezeWS l) = headIsWord l := by
  cases l with
  | nil => rfl
  | cons x t =>
    have hh := squeezeWS_head? x t
    have h1 : headIsWord (squeezeWS (x :: t)) =
        isWordChar (if isSpaceChar x then ' ' else x) := by
      rcases hsq : squeezeWS (x :: t) with _ | ⟨y, ys⟩
      · rw [hsq] at hh
        simp at hh
      · rw [hsq] at hh
        simp only [List.head?_cons, Option.some.injEq] at hh
        rw [hh]
        rfl
    rw [h1]
    rcases hx : isSpaceChar x with _ | _
    · simp only [Bool.false_eq_true, if_false]
      rfl
    · simp only [if_true]
      have : headIsWord (x :: t) = isWordChar x := rfl
      rw [this, space_not_word hx]
      decide

theorem squeezeWS_append_nonspace :
    ∀ (a m : List Char), (∀ c ∈ a, isSpaceChar c = false) →
      squeezeWS (a ++ m) = a ++ squeezeWS m := by
  intro a
  induction a with
  | nil => intro m _; rfl
  | cons x a' ih =>
    intro m h
    rw [List.cons_append, squeezeWS_cons_nonspace (h x (List.mem_cons_self x a')),
      ih m (fun c hc => h c (List.mem_cons_of_mem x hc))]
    rfl

theorem squeezeWS_prefix_peel :
    ∀ (a : List Char), (∀ c ∈ a, isWordChar c = true) →
      ∀ (m w : List Char), squeezeWS m = a ++ w →
        ∃ m₂, m = a ++ m₂ ∧ w = squeezeWS m₂ := by
  intro a
  induction a with
  | nil => intro _ m w h; exact ⟨m, rfl, h.symm⟩
  | cons x a' ih =>
    intro hw m w h
    have hxw : isWordChar x = true := hw x (List.mem_cons_self x a')
    cases m with
    | nil => simp [squeezeWS] at h
    | cons y t =>
      have hh := squeezeWS_head? y t
      rw [h] at hh
      simp only [List.cons_append, List.head?_cons, Option.some.injEq] at hh
      rcases hy : isSpaceChar y with _ | _
      · rw [hy] at hh
        simp only [Bool.false_eq_true, if_false] at hh
        subst hh
        rw [squeezeWS_cons_nonspace hy] at h
        simp only [List.cons_append, List.cons.injEq, true_and] at h
        obtain ⟨m₂, hm, hw2⟩ := ih (fun c hc => hw c (List.mem_cons_of_mem x hc)) t w h
        exact ⟨m₂, by rw [List.cons_append, hm], hw2⟩
      · rw [hy] at hh
        simp only [if_true] at hh
        rw [hh] at hxw
        exact absurd hxw (by decide)

theorem word_if_space (c : Char) :
    isWordChar (if isSpaceChar c then ' ' else c) = isWordChar c := by
  rcases h : isSpaceChar c with _ | _
  · simp
  · simp only [if_true]
    rw [space_not_word h]
    decide

theorem squeezeWS_occ :
    ∀ (l : List Char) (eW : Bool) (u a v : List Char),
      squeezeWS l = u ++ a ++ v → a ∈ wordAlts → lastWE eW u = false →
      ∃ u₀ v₀, l = u₀ ++ a ++ v₀ ∧ lastWE eW u₀ = false ∧
        headIsWord v₀ = headIsWord v := by
  intro l
  induction l with
  | nil =>
    intro eW u a v heq halt _
    have h0 : u ++ a ++ v = [] := heq.symm
    have ha : a = [] := (List.append_eq_nil.mp (List.append_eq_nil.mp h0).1).2
    exact absurd ha (wordAlts_ne_nil a halt)
  | cons c rest ih =>
    intro eW u a v heq halt hl
    cases rest with
    | nil =>
      simp only [squeezeWS] at heq
      have hane : a ≠ [] := wordAlts_ne_nil a halt
      have hal : 1 ≤ a.length := by
        cases a with
        | nil => exact absurd rfl hane
        | cons x a' => simp
      rcases hsc : isSpaceChar c with _ | _ <;> rw [hsc] at heq
      · simp only [Bool.false_eq_true, if_false] at heq
        have hlen := congrArg List.length heq
        simp only [List.length_cons, List.length_nil, List.length_append] at hlen
        have hu : u = [] := List.length_eq_zero.mp (by omega)
        have hv : v = [] := List.length_eq_zero.mp (by omega)
        subst hu
        subst hv
        simp only [List.nil_append, List.append_nil] at heq
        refine ⟨[], [], ?_, hl, rfl⟩
        rw [List.nil_append, List.append_nil]
        exact heq
      · simp only [if_true] at heq
        have hlen := congrArg List.length heq
        simp only [List.length_cons, List.length_nil, List.length_append] at hlen
        have hu : u = [] := List.length_eq_zero.mp (by omega)
        have hv : v = [] := List.length_eq_zero.mp (by omega)
        subst hu
        subst hv
        simp only [List.nil_append, List.append_nil] at heq
        have hmem : ' ' ∈ a := by
          rw [← heq]
          exact List.mem_cons_self _ _
        have := wordAlts_all_word a halt ' ' hmem
        exact absurd this (by decide)
    | cons d t =>
      by_cases hsp : isSpaceChar c = true ∧ isSpaceChar d = true
      · have hsq : squeezeWS (c :: d :: t) = squeezeWS (d :: t) := by
          simp only [squeezeWS, hsp.1, hsp.2, Bool.and_self, if_true]
        rw [hsq] at heq
        have hl' : lastWE false u = false := by
          cases u with
          | nil => rfl
          | cons e u' => rw [lastWE_indep]; exact hl
        obtain ⟨u₀, v₀, hdt, hu₀, hv⟩ := ih false u a v heq halt hl'
        refine ⟨c :: u₀, v₀, ?_, ?_, hv⟩
        · rw [show c :: u₀ ++ a ++ v₀ = c :: (u₀ ++ a ++ v₀) from rfl, ← hdt]
        · rw [lastWE_cons, space_not_word hsp.1]
          exact hu₀
      · have hcd : (isSpaceChar c && isSpaceChar d) = false := by
          rcases h1 : isSpaceChar c with _ | _
          · simp
          · rcases h2 : isSpaceChar d with _ | _
            · simp
            · exact absurd ⟨h1, h2⟩ hsp
        have hsq : squeezeWS (c :: d :: t) =
            (if isSpaceChar c then ' ' else c) :: squeezeWS (d :: t) := by
          simp only [squeezeWS, hcd, Bool.false_eq_true, if_false]
        rw [hsq] at heq
        cases u with
        | cons e u' =>
          rw [List.cons_append, List.cons_append] at heq
          simp only [List.cons.injEq] at heq
          obtain ⟨he1, he2⟩ := heq
          have he : (if isSpaceChar c then ' ' else c) = e ∧
              squeezeWS (d :: t) = u' ++ a ++ v := by
            constructor
            · exact he1
            · simpa [List.append_assoc] using he2
          have hl2 : lastWE (isWordChar (if isSpaceChar c then ' ' else c)) u' = false := by
            rw [he.1]
            rw [lastWE_cons] at hl
            exact hl
          obtain ⟨u₀, v₀, hdt, hu₀, hv⟩ :=
            ih (isWordChar (if isSpaceChar c then ' ' else c)) u' a v he.2 halt hl2
          refine ⟨c :: u₀, v₀, ?_, ?_, hv⟩
          · rw [show c :: u₀ ++ a ++ v₀ = c :: (u₀ ++ a ++ v₀) from rfl, ← hdt]
          · rw [lastWE_cons, ← word_if_space c]
            exact hu₀
        | nil =>
          simp only [List.nil_append] at heq
          cases a with
          | nil => exact absurd rfl (wordAlts_ne_nil [] halt)
          | cons x a' =>
            rw [List.cons_append] at heq
            have hx : (if isSpaceChar c then ' ' else c) = x ∧
                squeezeWS (d :: t) = a' ++ v := by
              simp only [List.cons.injEq] at heq
              exact heq
            have hxw : isWordChar x = true :=
              wordAlts_all_word _ halt x (List.mem_cons_self x a')
            have hcx : c = x := by
              rcases hsc : isSpaceChar c with _ | _
              · have := hx.1
                rw [hsc] at this
                simpa using this
              · have := hx.1
                rw [hsc] at this
                simp only [if_true] at this
                rw [← this] at hxw
                exact absurd hxw (by decide)
            subst hcx
            cases a' with
            | nil =>
              refine ⟨[], d :: t, rfl, hl, ?_⟩
              have hv : v = squeezeWS (d :: t) := by
                simpa using hx.2.symm
              rw [hv, squeezeWS_headIsWord]
            | cons y a'' =>
              have hallw : ∀ c₂ ∈ y :: a'', isWordChar c₂ = true := by
                intro c₂ hc₂
                exact wordAlts_all_word _ halt c₂ (List.mem_cons_of_mem c hc₂)
              obtain ⟨m₂, hm, hv2⟩ :=
                squeezeWS_prefix_peel (y :: a'') hallw (d :: t) v hx.2
              refine ⟨[], m₂, ?_, hl, ?_⟩
              · rw [List.nil_append, List.cons_append, hm]
              · rw [hv2, squeezeWS_headIsWord]
theorem tfw_squeezeWS {l : List Char} (h : TFW false l) : TFW false (squeezeWS l) := by
  intro u a v heq halt hl ht
  obtain ⟨u₀, v₀, h1, h2, h3⟩ := squeezeWS_occ l false u a v heq halt hl
  refine h u₀ a v₀ h1 halt h2 ?_
  simp only [trailingOKP, h3]
  exact ht

/-! ## Strip transport: trailing or leading whitespace does not create a
flanked unit occurrence, so `TFW` survives `str.strip`. -/

theorem headIsWord_spaces {sp : List Char} (hsp : ∀ c ∈ sp, isSpaceChar c = true)
    (v : List Char) : headIsWord (v ++ sp) = headIsWord v := by
  cases v with
  | nil =>
    simp only [List.nil_append]
    cases sp with
    | nil => rfl
    | cons s sp' =>
      have hs : isWordChar s = false :=
        space_not_word (hsp s (List.mem_cons_self s sp'))
      simp only [headIsWord, hs]
  | cons x v' => rfl

theorem lastWE_spaces {sp : List Char} (hsp : ∀ c ∈ sp, isSpaceChar c = true)
    (u : List Char) : lastWE false (sp ++ u) = lastWE false u := by
  induction sp with
  | nil => rfl
  | cons s sp' ih =>
    rw [List.cons_append, lastWE_cons,
      space_not_word (hsp s (List.mem_cons_self s sp'))]
    exact ih (fun c hc => hsp c (List.mem_cons_of_mem s hc))

theorem tfw_append_spaces {l sp : List Char} (hsp : ∀ c ∈ sp, isSpaceChar c = true)
    (h : TFW false (l ++ sp)) : TFW false l := by
  intro u a v heq halt hl ht
  refine h u a (v ++ sp) ?_ halt hl ?_
  · rw [heq]
    simp [List.append_assoc]
  · simp only [trailingOKP, headIsWord_spaces hsp]
    exact ht

theorem tfw_prepend_spaces {sp l : List Char} (hsp : ∀ c ∈ sp, isSpaceChar c = true)
    (h : TFW false (sp ++ l)) : TFW false l := by
  intro u a v heq halt hl ht
  refine h (sp ++ u) a v ?_ halt ?_ ht
  · rw [heq]
    simp [List.append_assoc]
  · rw [lastWE_spaces hsp]
    exact hl

theorem dropLeading_decomp (l : List Char) :
    ∃ sp, (∀ c ∈ sp, isSpaceChar c = true) ∧ l = sp ++ dropLeading l := by
  refine ⟨l.takeWhile isSpaceChar, ?_, (List.takeWhile_append_dropWhile isSpaceChar l).symm⟩
  intro c hc
  exact List.mem_takeWhile_imp hc

theorem dropTrailing_decomp (m : List Char) :
    ∃ sp, (∀ c ∈ sp, isSpaceChar c = true) ∧ m = dropTrailing m ++ sp := by
  refine ⟨(m.reverse.takeWhile isSpaceChar).reverse, ?_, ?_⟩
  · intro c hc
    rw [List.mem_reverse] at hc
    exact List.mem_takeWhile_imp hc
  · have h1 : m.reverse.takeWhile isSpaceChar ++ m.reverse.dropWhile isSpaceChar =
        m.reverse := List.takeWhile_append_dropWhile isSpaceChar m.reverse
    calc m = m.reverse.reverse := (List.reverse_reverse m).symm
    _ = (m.reverse.takeWhile isSpaceChar ++ m.reverse.dropWhile isSpaceChar).reverse := by
        rw [h1]
    _ = (m.reverse.dropWhile isSpaceChar).reverse ++
          (m.reverse.takeWhile isSpaceChar).reverse := by
        rw [List.reverse_append]

theorem tfw_stripChars {l : List Char} (h : TFW false l) : TFW false (stripChars l) := by
  obtain ⟨sp1, hs1, hd1⟩ := dropLeading_decomp l
  have h2 : TFW false (dropLeading l) :=
    tfw_prepend_spaces hs1 (by rw [← hd1]; exact h)
  obtain ⟨sp2, hs2, hd2⟩ := dropTrailing_decomp (dropLeading l)
  exact tfw_append_spaces hs2
    (by show TFW false (dropTrailing (dropLeading l) ++ sp2); rw [← hd2]; exact h2)

/-! ## Punctuation transport: stage 4 maps characters pointwise and
preserves word-ness, so `TFW` survives it. -/

theorem punct_word_eq (c : Char) :
    isWordChar (if keepPunct c then c else ' ') = isWordChar c := by
  rcases hk : keepPunct c with _ | _
  · simp only [hk, Bool.false_eq_true, if_false]
    have hw : isWordChar c = false := by
      rcases hw : isWordChar c with _ | _
      · rfl
      · have : keepPunct c = true := by simp [keepPunct, hw]
        rw [this] at hk
        exact absurd hk (by simp)
    rw [hw]
    decide
  · simp [hk]

theorem getLast?_map_char (f : Char → Char) (l : List Char) :
    (l.map f).getLast? = l.getLast?.map f := by
  rw [← List.head?_reverse, ← List.map_reverse, List.head?_map, List.head?_reverse]

theorem lastWE_map_punct (p : Bool) (u₀ : List Char) :
    lastWE p (u₀.map (fun c => if keepPunct c then c else ' ')) = lastWE p u₀ := by
  unfold lastWE
  rw [getLast?_map_char]
  cases hx : u₀.getLast? with
  | none => rfl
  | some x =>
    show isWordChar (if keepPunct x then x else ' ') = isWordChar x
    exact punct_word_eq x

theorem headIsWord_map_punct (v₀ : List Char) :
    headIsWord (v₀.map (fun c => if keepPunct c then c else ' ')) = headIsWord v₀ := by
  cases v₀ with
  | nil => rfl
  | cons x t => exact punct_word_eq x

theorem map_punct_eq_self :
    ∀ {l₃ a : List Char},
      l₃.map (fun c => if keepPunct c then c else ' ') = a →
      (∀ c ∈ a, isWordChar c = true) → l₃ = a := by
  intro l₃
  induction l₃ with
  | nil =>
    intro a hm _
    simpa using hm.symm
  | cons x t ih =>
    intro a hm hw
    cases a with
    | nil => simp at hm
    | cons y a' =>
      simp only [List.map_cons, List.cons.injEq] at hm
      obtain ⟨h1, h2⟩ := hm
      have hyw : isWordChar y = true := hw y (List.mem_cons_self y a')
      have hxy : x = y := by
        rcases hk : keepPunct x with _ | _
        · rw [hk] at h1
          simp only [Bool.false_eq_true, if_false] at h1
          rw [← h1] at hyw
          exact absurd hyw (by decide)
        · rw [hk] at h1
          simpa using h1
      rw [hxy, ih h2 (fun c hc => hw c (List.mem_cons_of_mem y hc))]

theorem tfw_punct {l : List Char} (h : TFW false l) : TFW false (punctToSpace l) := by
  intro u a v heq halt hl ht
  unfold punctToSpace at heq
  obtain ⟨l₁₂, l₄, hl12, hm12, hm4⟩ := List.map_eq_append_iff.mp heq
  obtain ⟨l₁, l₃, hl13, hm1, hm3⟩ := List.map_eq_append_iff.mp hm12
  have hl3 : l₃ = a := map_punct_eq_self hm3 (wordAlts_all_word a halt)
  refine h l₁ a l₄ ?_ halt ?_ ?_
  · rw [hl12, hl13, hl3]
  · have hle := lastWE_map_punct false l₁
    rw [hm1] at hle
    rw [← hle]
    exact hl
  · have hhe := headIsWord_map_punct l₄
    rw [hm4] at hhe
    simp only [trailingOKP, ← hhe]
    simp only [trailingOKP] at ht
    exact ht

/-! ## `NoOpenClose` transports through the later stages -/

theorem removeBrackets_sublist (l : List Char) : (removeBrackets l).Sublist l :=
  removeBracketsF_sublist l.length l

theorem removeUnits_sublist (l : List Char) : (removeUnits l).Sublist l :=
  removeUnitsF_sublist l.length false l

theorem stripChars_sublist (l : List Char) : (stripChars l).Sublist l := by
  have h1 : (dropLeading l).Sublist l := List.dropWhile_sublist _
  have h2 : (dropTrailing (dropLeading l)).Sublist (dropLeading l) := by
    have h3 : ((dropLeading l).reverse.dropWhile isSpaceChar).Sublist
        (dropLeading l).reverse := List.dropWhile_sublist _
    have h4 := h3.reverse
    rwa [List.reverse_reverse] at h4
  exact h2.trans h1

theorem open_ne_space {x : Char} (h : isOpenB x = true) : x ≠ ' ' := by
  simp only [isOpenB, Bool.or_eq_true, decide_eq_true_eq] at h
  rcases h with rfl | rfl <;> decide

theorem close_ne_space {y : Char} (h : isCloseB y = true) : y ≠ ' ' := by
  simp only [isCloseB, Bool.or_eq_true, decide_eq_true_eq] at h
  rcases h with rfl | rfl <;> decide

theorem punct_pre {p x : Char} (hf : (if keepPunct p then p else ' ') = x)
    (hx : x ≠ ' ') : p = x := by
  rcases hk : keepPunct p with _ | _
  · rw [hk] at hf
    simp only [Bool.false_eq_true, if_false] at hf
    exact absurd hf.symm hx
  · rw [hk] at hf
    simpa using hf

theorem noc_punct {l : List Char} (h : NoOpenClose l) : NoOpenClose (punctToSpace l) := by
  intro x y hs hx hy
  obtain ⟨l', hsub, heq⟩ := List.sublist_map_iff.mp hs
  cases l' with
  | nil => simp at heq
  | cons p rest =>
    cases rest with
    | nil => simp at heq
    | cons q rest2 =>
      cases rest2 with
      | cons r rest3 =>
        have hlen := congrArg List.length heq
        simp at hlen
      | nil =>
        simp only [List.map_cons, List.map_nil, List.cons.injEq, and_true] at heq
        obtain ⟨h1, h2⟩ := heq
        have hp : p = x := punct_pre h1.symm (open_ne_space hx)
        have hq : q = y := punct_pre h2.symm (close_ne_space hy)
        subst hp
        subst hq
        exact h p q hsub hx hy

theorem filter_nonspace_squeezeWS (l : List Char) :
    (squeezeWS l).filter (fun c => !isSpaceChar c) =
      l.filter (fun c => !isSpaceChar c) := by
  induction l with
  | nil => rfl
  | cons c rest ih =>
    cases rest with
    | nil =>
      rcases hs : isSpaceChar c with _ | _
      · rw [show squeezeWS [c] = [c] from by simp [squeezeWS, hs]]
      · rw [show squeezeWS [c] = [' '] from by simp [squeezeWS, hs]]
        rw [List.filter_cons, List.filter_cons]
        simp [hs, (by decide : isSpaceChar ' ' = true)]
    | cons d t =>
      rcases hs : isSpaceChar c with _ | _
      · rw [squeezeWS_cons_nonspace hs]
        rw [List.filter_cons, List.filter_cons, ih]
      · rcases hd : isSpaceChar d with _ | _
        · rw [show squeezeWS (c :: d :: t) = ' ' :: squeezeWS (d :: t) from by
            simp [squeezeWS, hs, hd]]
          rw [List.filter_cons, List.filter_cons, ih]
          simp [hs, (by decide : isSpaceChar ' ' = true)]
        · rw [show squeezeWS (c :: d :: t) = squeezeWS (d :: t) from by
            simp [squeezeWS, hs, hd]]
          rw [ih]
          conv_rhs => rw [List.filter_cons]
          simp [hs]

theorem noc_squeezeWS {l : List Char} (h : NoOpenClose l) :
    NoOpenClose (squeezeWS l) := by
  intro x y hs hx hy
  have hxs : isSpaceChar x = false := open_not_space hx
  have hys : isSpaceChar y = false := close_not_space hy
  have h2 := hs.filter (fun c => !isSpaceChar c)
  have hfs : ([x, y].filter (fun c => !isSpaceChar c)) = [x, y] := by
    simp [List.filter, hxs, hys]
  rw [hfs, filter_nonspace_squeezeWS] at h2
  have h3 : ([x, y] : List Char).Sublist l :=
    h2.trans (List.filter_sublist l)
  exact h x y h3 hx hy

/-! ## Character-level no-op facts for the second normalizer pass -/

theorem pyLower_toNat_ge {c : Char} (h : 'A' ≤ c ∧ c ≤ 'Z') :
    (Char.ofNat (c.toNat + 32)).toNat = c.toNat + 32 := by
  have h1 : 65 ≤ c.toNat := h.1
  have h2 : c.toNat ≤ 90 := h.2
  have hv : (c.toNat + 32).isValidChar := Or.inl (by omega)
  unfold Char.ofNat
  rw [dif_pos hv]
  rfl

theorem pyLower_idem (c : Char) : pyLower (pyLower c) = pyLower c := by
  unfold pyLower
  by_cases h : 'A' ≤ c ∧ c ≤ 'Z'
  · rw [if_pos h]
    have ht := pyLower_toNat_ge h
    have h2 : c.toNat ≤ 90 := h.2
    have h1 : 65 ≤ c.toNat := h.1
    have hn : ¬('A' ≤ Char.ofNat (c.toNat + 32) ∧ Char.ofNat (c.toNat + 32) ≤ 'Z') := by
      intro hc
      have : (Char.ofNat (c.toNat + 32)).toNat ≤ 90 := hc.2
      omega
    rw [if_neg hn]
  · rw [if_neg h, if_neg h]

theorem pyLower_newline {c : Char} (h : pyLower c = '\n') : c = '\n' := by
  unfold pyLower at h
  by_cases hc : 'A' ≤ c ∧ c ≤ 'Z'
  · rw [if_pos hc] at h
    have ht := pyLower_toNat_ge hc
    have h1 : 65 ≤ c.toNat := hc.1
    have hn : (Char.ofNat (c.toNat + 32)).toNat = '\n'.toNat := by rw [h]
    rw [ht] at hn
    have : ('\n'.toNat : Nat) = 10 := rfl
    omega
  · rwa [if_neg hc] at h

theorem map_pyLower_noop {l : List Char} (h : ∀ c ∈ l, pyLower c = c) :
    l.map pyLower = l := by
  induction l with
  | nil => rfl
  | cons c t ih =>
    rw [List.map_cons, h c (List.mem_cons_self c t),
      ih (fun x hx => h x (List.mem_cons_of_mem c hx))]

theorem punct_noop {l : List Char} (h : ∀ c ∈ l, keepPunct c = true) :
    punctToSpace l = l := by
  unfold punctToSpace
  induction l with
  | nil => rfl
  | cons c t ih =>
    rw [List.map_cons, if_pos (h c (List.mem_cons_self c t)),
      ih (fun x hx => h x (List.mem_cons_of_mem c hx))]

theorem punct_mem {c : Char} {l : List Char} (h : c ∈ punctToSpace l) :
    c ∈ l ∨ c = ' ' := by
  unfold punctToSpace at h
  obtain ⟨x, hx, hfx⟩ := List.mem_map.mp h
  by_cases hk : keepPunct x
  · rw [if_pos hk] at hfx
    exact Or.inl (hfx ▸ hx)
  · rw [if_neg hk] at hfx
    exact Or.inr hfx.symm

theorem squeeze_mem {c : Char} :
    ∀ {l : List Char}, c ∈ squeezeWS l → c ∈ l ∨ c = ' ' := by
  intro l
  induction l with
  | nil => intro h; simp [squeezeWS] at h
  | cons x rest ih =>
    intro h
    cases rest with
    | nil =>
      rcases hs : isSpaceChar x with _ | _ <;> rw [show squeezeWS [x] =
          (if isSpaceChar x then [' '] else [x]) from rfl, hs] at h
      · simp only [Bool.false_eq_true, if_false] at h
        exact Or.inl h
      · simp only [if_true, List.mem_singleton] at h
        exact Or.inr h
    | cons d t =>
      by_cases hsp : (isSpaceChar x && isSpaceChar d) = true
      · rw [show squeezeWS (x :: d :: t) = squeezeWS (d :: t) from by
          simp only [squeezeWS, hsp, if_true]] at h
        rcases ih h with h1 | h1
        · exact Or.inl (List.mem_cons_of_mem x h1)
        · exact Or.inr h1
      · rw [show squeezeWS (x :: d :: t) =
            (if isSpaceChar x then ' ' else x) :: squeezeWS (d :: t) from by
          simp only [squeezeWS, Bool.not_eq_true] at *
          simp only [squeezeWS, hsp, Bool.false_eq_true, if_false]] at h
        rcases List.mem_cons.mp h with h1 | h1
        · rcases hs : isSpaceChar x with _ | _ <;> rw [hs] at h1
          · simp only [Bool.false_eq_true, if_false] at h1
            exact Or.inl (h1 ▸ List.mem_cons_self x (d :: t))
          · simp only [if_true] at h1
            exact Or.inr h1
        · rcases ih h1 with h2 | h2
          · exact Or.inl (List.mem_cons_of_mem x h2)
          · exact Or.inr h2

theorem squeeze_chain (l : List Char) :
    List.Chain' (fun a b => ¬(isSpaceChar a = true ∧ isSpaceChar b = true))
      (squeezeWS l) := by
  induction l with
  | nil => exact List.chain'_nil
  | cons c rest ih =>
    cases rest with
    | nil =>
      rcases hs : isSpaceChar c with _ | _
      · rw [show squeezeWS [c] = [c] from by simp [squeezeWS, hs]]
        exact List.chain'_singleton c
      · rw [show squeezeWS [c] = [' '] from by simp [squeezeWS, hs]]
        exact List.chain'_singleton ' '
    | cons d t =>
      by_cases hsp : (isSpaceChar c && isSpaceChar d) = true
      · rw [show squeezeWS (c :: d :: t) = squeezeWS (d :: t) from by
          simp only [squeezeWS, hsp, if_true]]
        exact ih
      · have hcd : (isSpaceChar c && isSpaceChar d) = false := by
          rcases h1 : isSpaceChar c with _ | _
          · simp
          · rcases h2 : isSpaceChar d with _ | _
            · simp
            · exact absurd (by rw [h1, h2]; rfl) hsp
        rw [show squeezeWS (c :: d :: t) =
            (if isSpaceChar c then ' ' else c) :: squeezeWS (d :: t) from by
          simp only [squeezeWS, hcd, Bool.false_eq_true, if_false]]
        rw [List.chain'_cons']
        refine ⟨?_, ih⟩
        intro b hb
        have hd2 := squeezeWS_head? d t
        rw [hb] at hd2
        simp only [Option.mem_def, Option.some.injEq] at hd2
        rcases hsc : isSpaceChar c with _ | _
        · simp only [hsc, Bool.false_eq_true, if_false]
          intro hcon
          exact hcon.1
        · have hdns : isSpaceChar d = false := by
            rcases hdd : isSpaceChar d with _ | _
            · rfl
            · exact absurd (by rw [hsc, hdd]; rfl) hsp
          have hbd : b = d := by
            rw [hd2, hdns]
            simp
          simp [hbd, hdns]

theorem squeeze_space_char :
    ∀ {l : List Char}, ∀ c ∈ squeezeWS l, isSpaceChar c = true → c = ' ' := by
  intro l
  induction l with
  | nil => intro c hc; simp [squeezeWS] at hc
  | cons x rest ih =>
    intro c hc hcs
    cases rest with
    | nil =>
      rcases hs : isSpaceChar x with _ | _ <;>
        rw [show squeezeWS [x] = (if isSpaceChar x then [' '] else [x]) from rfl,
          hs] at hc
      · simp only [Bool.false_eq_true, if_false, List.mem_singleton] at hc
        rw [hc] at hcs
        rw [hcs] at hs
        exact absurd hs (by simp)
      · simp only [if_true, List.mem_singleton] at hc
        exact hc
    | cons d t =>
      by_cases hsp : (isSpaceChar x && isSpaceChar d) = true
      · rw [show squeezeWS (x :: d :: t) = squeezeWS (d :: t) from by
          simp only [squeezeWS, hsp, if_true]] at hc
        exact ih c hc hcs
      · rw [show squeezeWS (x :: d :: t) =
            (if isSpaceChar x then ' ' else x) :: squeezeWS (d :: t) from by
          simp only [squeezeWS, hsp, Bool.false_eq_true, if_false]] at hc
        rcases List.mem_cons.mp hc with h1 | h1
        · rcases hs : isSpaceChar x with _ | _ <;> rw [hs] at h1
          · simp only [Bool.false_eq_true, if_false] at h1
            rw [h1] at hcs
            rw [hcs] at hs
            exact absurd hs (by simp)
          · simpa using h1
        · exact ih c h1 hcs

theorem squeeze_noop :
    ∀ {l : List Char},
      List.Chain' (fun a b => ¬(isSpaceChar a = true ∧ isSpaceChar b = true)) l →
      (∀ c ∈ l, isSpaceChar c = true → c = ' ') → squeezeWS l = l := by
  intro l
  induction l with
  | nil => intro _ _; rfl
  | cons c rest ih =>
    intro hch hsp
    cases rest with
    | nil =>
      rcases hs : isSpaceChar c with _ | _
      · simp [squeezeWS, hs]
      · have : c = ' ' := hsp c (List.mem_cons_self c []) hs
        simp [squeezeWS, hs, this]
    | cons d t =>
      have hR := (List.chain'_cons'.mp hch).1 d rfl
      have hch' := (List.chain'_cons'.mp hch).2
      have hcd : (isSpaceChar c && isSpaceChar d) = false := by
        rcases h1 : isSpaceChar c with _ | _
        · simp
        · rcases h2 : isSpaceChar d with _ | _
          · simp
          · exact absurd ⟨h1, h2⟩ hR
      rw [show squeezeWS (c :: d :: t) =
          (if isSpaceChar c then ' ' else c) :: squeezeWS (d :: t) from by
        simp only [squeezeWS, hcd, Bool.false_eq_true, if_false]]
      rw [ih hch' (fun x hx => hsp x (List.mem_cons_of_mem c hx))]
      rcases hs : isSpaceChar c with _ | _
      · simp
      · have : c = ' ' := hsp c (List.mem_cons_self c (d :: t)) hs
        simp [this]

/-! ## Edge and chain facts survive `str.strip` -/

theorem dropLeading_head {l : List Char} {c : Char}
    (h : (dropLeading l).head? = some c) : isSpaceChar c = false := by
  unfold dropLeading at h
  have h2 := List.head?_dropWhile_not isSpaceChar l
  rw [h] at h2
  simpa using h2

theorem dropTrailing_last {m : List Char} {c : Char}
    (h : (dropTrailing m).getLast? = some c) : isSpaceChar c = false := by
  unfold dropTrailing at h
  rw [← List.head?_reverse, List.reverse_reverse] at h
  have h2 := List.head?_dropWhile_not isSpaceChar m.reverse
  rw [h] at h2
  simpa using h2

theorem dropTrailing_head {m : List Char}
    (hm : ∀ c, m.head? = some c → isSpaceChar c = false)
    {c : Char} (h : (dropTrailing m).head? = some c) : isSpaceChar c = false := by
  obtain ⟨sp, hsp, hd⟩ := dropTrailing_decomp m
  apply hm
  rw [hd]
  cases hx : dropTrailing m with
  | nil =>
    rw [hx] at h
    simp at h
  | cons x r =>
    rw [hx] at h
    simp only [List.head?_cons, Option.some.injEq] at h
    simp [h]

theorem strip_noop {l : List Char}
    (hh : ∀ c, l.head? = some c → isSpaceChar c = false)
    (hl : ∀ c, l.getLast? = some c → isSpaceChar c = false) :
    stripChars l = l := by
  have h1 : dropLeading l = l := by
    cases l with
    | nil => rfl
    | cons c t =>
      unfold dropLeading
      rw [List.dropWhile_cons, if_neg (by simp [hh c rfl])]
  unfold stripChars
  rw [h1]
  unfold dropTrailing
  have h2 : l.reverse.dropWhile isSpaceChar = l.reverse := by
    cases hr : l.reverse with
    | nil => rfl
    | cons c t =>
      have hgl : l.getLast? = some c := by
        rw [← List.head?_reverse, hr]
        rfl
      rw [List.dropWhile_cons, if_neg (by simp [hl c hgl])]
  rw [h2, List.reverse_reverse]

theorem sqn_strip {l : List Char}
    (hc : List.Chain' (fun a b => ¬(isSpaceChar a = true ∧ isSpaceChar b = true)) l) :
    List.Chain' (fun a b => ¬(isSpaceChar a = true ∧ isSpaceChar b = true))
      (stripChars l) := by
  have h1 : List.Chain' (fun a b => ¬(isSpaceChar a = true ∧ isSpaceChar b = true))
      (dropLeading l) := hc.suffix (List.dropWhile_suffix _)
  obtain ⟨sp, hsp, hd⟩ := dropTrailing_decomp (dropLeading l)
  exact h1.prefix ⟨sp, hd.symm⟩

theorem punct_keep {c : Char} {l : List Char} (h : c ∈ punctToSpace l) :
    keepPunct c = true := by
  unfold punctToSpace at h
  obtain ⟨x, hx, hfx⟩ := List.mem_map.mp h
  by_cases hk : keepPunct x
  · rw [if_pos hk] at hfx
    rw [← hfx]
    exact hk
  · rw [if_neg hk] at hfx
    rw [← hfx]
    decide

/-! ## Idempotence of the normalizer core on newline-free inputs -/

theorem normCore_idem {l : List Char} (hnl : '\n' ∉ l) :
    normCore (normCore l) = normCore l := by
  have hnl1 : '\n' ∉ (stripChars l).map pyLower := by
    intro hmem
    obtain ⟨x, hx, hpx⟩ := List.mem_map.mp hmem
    have hx2 : x = '\n' := pyLower_newline hpx
    exact hnl ((stripChars_sublist l).subset (hx2 ▸ hx))
  have hNOC0 : NoOpenClose (removeBrackets ((stripChars l).map pyLower)) :=
    removeBrackets_noc hnl1
  have hNOC1 : NoOpenClose (removeUnits (removeBrackets ((stripChars l).map pyLower))) :=
    noc_sublist (removeUnits_sublist _) hNOC0
  have hNOC2 := noc_punct hNOC1
  have hNOC3 := noc_squeezeWS hNOC2
  have hNOCy : NoOpenClose (normCore l) := by
    unfold normCore collapseWS
    exact noc_sublist (stripChars_sublist _) hNOC3
  have hTFW0 : TFW false (removeUnits (removeBrackets ((stripChars l).map pyLower))) :=
    removeUnits_post _
  have hTFWy : TFW false (normCore l) := by
    unfold normCore collapseWS
    exact tfw_stripChars (tfw_squeezeWS (tfw_punct hTFW0))
  have hLFy : ∀ c ∈ normCore l, pyLower c = c := by
    intro c hc
    unfold normCore collapseWS at hc
    have hc1 := (stripChars_sublist _).subset hc
    rcases squeeze_mem hc1 with hc2 | hc2
    · rcases punct_mem hc2 with hc3 | hc3
      · have hc4 := (removeUnits_sublist _).subset hc3
        have hc5 := (removeBrackets_sublist _).subset hc4
        obtain ⟨x, _, hpx⟩ := List.mem_map.mp hc5
        rw [← hpx]
        exact pyLower_idem x
      · rw [hc3]
        decide
    · rw [hc2]
      decide
  have hKeepy : ∀ c ∈ normCore l, keepPunct c = true := by
    intro c hc
    unfold normCore collapseWS at hc
    have hc1 := (stripChars_sublist _).subset hc
    rcases squeeze_mem hc1 with hc2 | hc2
    · exact punct_keep hc2
    · rw [hc2]
      decide
  have hChainy : List.Chain' (fun a b => ¬(isSpaceChar a = true ∧ isSpaceChar b = true))
      (normCore l) := by
    unfold normCore collapseWS
    exact sqn_strip (squeeze_chain _)
  have hSpy : ∀ c ∈ normCore l, isSpaceChar c = true → c = ' ' := by
    intro c hc hcs
    unfold normCore collapseWS at hc
    exact squeeze_space_char c ((stripChars_sublist _).subset hc) hcs
  have hEdgeH : ∀ c, (normCore l).head? = some c → isSpaceChar c = false := by
    unfold normCore collapseWS stripChars
    intro c h
    exact dropTrailing_head (fun c2 h2 => dropLeading_head h2) h
  have hEdgeL : ∀ c, (normCore l).getLast? = some c → isSpaceChar c = false := by
    unfold normCore collapseWS stripChars
    intro c h
    exact dropTrailing_last h
  show collapseWS (punctToSpace (removeUnits (removeBrackets
    ((stripChars (normCore l)).map pyLower)))) = normCore l
  rw [strip_noop hEdgeH hEdgeL, map_pyLower_noop hLFy, removeBrackets_noop hNOCy,
    removeUnits_noop (tfw_tfe hTFWy), punct_noop hKeepy]
  show stripChars (squeezeWS (normCore l)) = normCore l
  rw [squeeze_noop hChainy hSpy]
  exact strip_noop hEdgeH hEdgeL

/-- C3 (counterexample): the normalizer is not idempotent on every input.
The lazy bracket regex cannot cross a newline, so `"(a\nb)"` keeps its
brackets in the first pass while the whitespace collapse turns the newline
into a space; the second pass then sees `"(a b)"`, removes the whole
bracture span and returns the empty string. -/
theorem c3_counterexample :
    normalize_product_name (normalize_product_name "(a\nb)") ≠
      normalize_product_name "(a\nb)" := by
  decide

/-- C3 (amended): the normalizer is idempotent on every newline-free input
(the empty string included); the only failures of
`normalize(normalize(x)) == normalize(x)` need a newline inside a bracket
span. -/
theorem c3_amended (s : String) (h : '\n' ∉ s.toList) :
    normalize_product_name (normalize_product_name s) = normalize_product_name s := by
  unfold normalize_product_name
  by_cases hs : s.isEmpty
  · rw [if_pos hs]
    rfl
  · rw [if_neg hs]
    by_cases hy : normCore s.toList = []
    · rw [hy]
      rfl
    · have hne : (List.asString (normCore s.toList)).isEmpty = false := by
        rcases hemp : (List.asString (normCore s.toList)).isEmpty with _ | _
        · rfl
        · exfalso
          apply hy
          have h2 : List.asString (normCore s.toList) = "" :=
            (String.isEmpty_iff _).mp hemp
          have h3 := congrArg String.toList h2
          simpa using h3
      rw [if_neg (by
        intro hc
        have hc' : (List.asString (normCore s.toList)).isEmpty = true := hc
        rw [hne] at hc'
        exact absurd hc' (by decide))]
      have htl : (List.asString (normCore s.toList)).toList = normCore s.toList := rfl
      rw [htl, normCore_idem h]

/-- Witness for C3 (amended): a realistic product name with leading and
trailing spaces, a unit token and a bracket remark. -/
theorem c3_witness :
    '\n' ∉ " Apple 500g (fresh) ".toList ∧
      normalize_product_name (normalize_product_name " Apple 500g (fresh) ") =
        normalize_product_name " Apple 500g (fresh) " :=
  ⟨by decide, c3_amended " Apple 500g (fresh) " (by decide)⟩

end Zhiguan
